import Mathlib

/-!
Verification of the claim post-processing, filtering and signing core of the
linked-claims-extractor repository, against its natural-language specification.

The embedding models:
* `key_manager.py` — `KeyManager.sign_claim` / `KeyManager.verify_signature`
  (canonical JSON serialization with sorted keys and compact separators,
  base64-encoded RSA-PSS signatures);
* `linkedtrust_client.py` — `LinkedTrustClient.sign_claim` (default separators,
  hex-encoded signature), `validate_claim`, `format_claim`, `submit_claim`;
* `src/claim_extractor/llm_extract.py` — `ClaimExtractor._filter_claims`,
  the keyword predicates, and the JSON-parse step of `extract_claims`.

Modelling conventions:
* Python dicts become association lists `List (String × v)`; dict update,
  removal and lookup are explicit functions mirroring dict semantics.
* Claim mappings handled by the signer carry scalar JSON values
  (string, int, float as a decimal literal, bool, null); Python floats are
  modelled as sign/integer-part/fraction-digit triples rendered exactly as
  their shortest decimal literal, which is what `json.dumps` prints for the
  repository's literals (0.9, 0.7, 0.95).
* The LLM-response parser works over full JSON values `PyVal`
  (JSON numbers restricted to integers; the repository's parsing claims
  involve no fractional numbers).
* The RSA-PSS primitive is abstracted as a pair of functions
  `sk : List Char → List Nat` (message to signature bytes) and
  `vk : List Nat → List Char → Bool`, quantified in the theorems together
  with the two properties the claims rely on: a signature of a message
  verifies against it, and verifies against no other message.
* Raising a Python exception is modelled as `Except.error`; the exception
  text is abbreviated.
* `base64.b64encode` / `b64decode` and the canonical serializer of
  `json.dumps` are modelled concretely, byte for byte.
-/

/-- Scalar JSON value of a claim field, as handled by `json.dumps` in
`key_manager.py` and `linkedtrust_client.py`.  A Python float is kept as its
shortest-repr decimal literal: sign, integer part, fraction digits. -/
inductive JVal : Type where
  | str (s : String)
  | int (n : Int)
  | float (neg : Bool) (ip : Nat) (frac : List (Fin 10))
  | bool (b : Bool)
  | null
deriving DecidableEq, Repr

/-- A claim mapping: a Python `Dict[str, Any]` as an association list. -/
abbrev Claim : Type := List (String × JVal)

/-- `d[k]` lookup on a dict (first binding wins, as dict keys are unique). -/
def lookupField : Claim → String → Option JVal
  | [], _ => none
  | (k0, v0) :: t, k => if k0 = k then some v0 else lookupField t k

/-- `k in d` on a dict. -/
def containsKey (c : Claim) (k : String) : Bool :=
  (lookupField c k).isSome

/-- `d[k] = v` on a dict: replace the binding in place, or append. -/
def setField : Claim → String → JVal → Claim
  | [], k, v => [(k, v)]
  | (k0, v0) :: t, k, v =>
      if k0 = k then (k, v) :: t else (k0, v0) :: setField t k v

/-- `d.pop(k, None)` restricted to its effect on the mapping: the dict
without key `k`. -/
def removeField : Claim → String → Claim
  | [], _ => []
  | (k0, v0) :: t, k =>
      if k0 = k then removeField t k else (k0, v0) :: removeField t k

/-- Python truthiness (`bool(v)`) of a scalar claim-field value. -/
def pyTruthy : JVal → Bool
  | .str s => s ≠ ""
  | .int n => n ≠ 0
  | .float _ ip frac => ip ≠ 0 || frac.any (fun d => d ≠ 0)
  | .bool b => b
  | .null => false

/-! ## Canonical JSON serialization (`json.dumps`) -/

/-- The character `\x7b` (opening curly brace). -/
def lbrace : Char := Char.ofNat 123

/-- The character `\x7d` (closing curly brace). -/
def rbrace : Char := Char.ofNat 125

/-- Decimal digit character. -/
def digitChar (d : Nat) : Char := Char.ofNat (48 + d)

/-- Lowercase hexadecimal digit character (as used by `%04x` and `bytes.hex`). -/
def hexDigitChar (d : Nat) : Char :=
  if d < 10 then Char.ofNat (48 + d) else Char.ofNat (87 + d)

/-- Decimal digits of a natural number, most significant first. -/
def natDigits (n : Nat) : List Char :=
  if _h : n < 10 then [digitChar n]
  else natDigits (n / 10) ++ [digitChar (n % 10)]
termination_by n
decreasing_by exact Nat.div_lt_self (by omega) (by omega)

/-- `repr` of a Python int. -/
def intRepr : Int → List Char
  | .ofNat m => natDigits m
  | .negSucc m => '-' :: natDigits (m + 1)

/-- Four lowercase hex digits, as produced by the `\uXXXX` escapes of
`json.dumps` with `ensure_ascii=True`. -/
def hex4 (n : Nat) : List Char :=
  [hexDigitChar (n / 4096 % 16), hexDigitChar (n / 256 % 16),
   hexDigitChar (n / 16 % 16), hexDigitChar (n % 16)]

/-- The escape `json.dumps` (with the default `ensure_ascii=True`) applies to
one character of a string: `"` and `\` get a backslash, the five control
shorthands are used, all other characters outside `0x20`–`0x7e` become
`\uXXXX` (a surrogate pair for astral characters), the rest pass through. -/
def escapeChar (c : Char) : List Char :=
  if c = '"' then ['\\', '"']
  else if c = '\\' then ['\\', '\\']
  else if c = '\n' then ['\\', 'n']
  else if c = '\r' then ['\\', 'r']
  else if c = '\t' then ['\\', 't']
  else if c.toNat = 8 then ['\\', 'b']
  else if c.toNat = 12 then ['\\', 'f']
  else if c.toNat < 32 ∨ 127 ≤ c.toNat then
    if c.toNat < 65536 then '\\' :: 'u' :: hex4 c.toNat
    else
      '\\' :: 'u' :: hex4 (55296 + (c.toNat - 65536) / 1024) ++
        '\\' :: 'u' :: hex4 (56320 + (c.toNat - 65536) % 1024)
  else [c]

/-- JSON escaping of a whole string body. -/
def escape : List Char → List Char
  | [] => []
  | c :: t => escapeChar c ++ escape t

/-- Serialization of one scalar value, exactly as `json.dumps` prints it. -/
def renderJVal : JVal → List Char
  | .str s => '"' :: escape s.data ++ ['"']
  | .int n => intRepr n
  | .float neg ip frac =>
      (if neg then ['-'] else []) ++ natDigits ip ++
        '.' :: frac.map (fun d => digitChar d.1)
  | .bool true => ['t', 'r', 'u', 'e']
  | .bool false => ['f', 'a', 'l', 's', 'e']
  | .null => ['n', 'u', 'l', 'l']

/-- One `"key"<colon>value` item; `colon` is the key separator
(`":"` for compact output, `": "` for the default). -/
def renderPair (colon : List Char) (p : String × JVal) : List Char :=
  '"' :: escape p.1.data ++ '"' :: colon ++ renderJVal p.2

/-- The items of a dict joined by `comma`, closed by the final brace. -/
def renderPairsSep (comma colon : List Char) :
    List (String × JVal) → List Char
  | [] => [rbrace]
  | [p] => renderPair colon p ++ [rbrace]
  | p :: q :: rest =>
      renderPair colon p ++ comma ++ renderPairsSep comma colon (q :: rest)

/-- A whole dict with the given separators (keys already ordered). -/
def render (comma colon : List Char) (l : List (String × JVal)) : List Char :=
  lbrace :: renderPairsSep comma colon l

/-- Insert one binding into a key-ordered association list. -/
def insertByKey (p : String × JVal) :
    List (String × JVal) → List (String × JVal)
  | [] => [p]
  | q :: t => if q.1 < p.1 then q :: insertByKey p t else p :: q :: t

/-- `sorted(d.items())`: bindings in ascending key order (insertion sort). -/
def sortKeys : List (String × JVal) → List (String × JVal)
  | [] => []
  | p :: t => insertByKey p (sortKeys t)

/-- `json.dumps(c, sort_keys=True, separators=(',', ':'))`
— the canonical serialization of `KeyManager`. -/
def canonicalJson (c : Claim) : List Char :=
  render [','] [':'] (sortKeys c)

/-- `json.dumps(c, sort_keys=True)` with the default separators
`(', ', ': ')` — the serialization used by `LinkedTrustClient.sign_claim`. -/
def defaultJson (c : Claim) : List Char :=
  render [',', ' '] [':', ' '] (sortKeys c)

/-! ## base64 and hex encodings -/

/-- The standard base64 alphabet. -/
def b64chars : List Char :=
  "ABCDEFGHIJKLMNOPQRSTUVWXYZabcdefghijklmnopqrstuvwxyz0123456789+/".data

/-- Character for one sextet. -/
def sextetChar (n : Nat) : Char := b64chars.getD n '?'

/-- Sextet value of one alphabet character (`none` off the alphabet). -/
def charSextet (c : Char) : Option Nat := b64chars.indexOf? c

/-- `base64.b64encode` on a byte list (values `< 256`). -/
def b64encode : List Nat → List Char
  | [] => []
  | [a] => [sextetChar (a / 4), sextetChar (a % 4 * 16), '=', '=']
  | [a, b] =>
      [sextetChar (a / 4), sextetChar (a % 4 * 16 + b / 16),
       sextetChar (b % 16 * 4), '=']
  | a :: b :: c :: rest =>
      sextetChar (a / 4) :: sextetChar (a % 4 * 16 + b / 16) ::
        sextetChar (b % 16 * 4 + c / 64) :: sextetChar (c % 64) ::
          b64encode rest

/-- `base64.b64decode`: strict four-character blocks with `=` padding,
failing (as the Python decoder raises `binascii.Error`) when the input is
not a validly padded encoding. -/
def b64decode : List Char → Option (List Nat)
  | [] => some []
  | c1 :: c2 :: c3 :: c4 :: rest =>
      if c3 = '=' ∧ c4 = '=' ∧ rest = [] then do
        let s1 ← charSextet c1
        let s2 ← charSextet c2
        pure [s1 * 4 + s2 / 16]
      else if c4 = '=' ∧ rest = [] then do
        let s1 ← charSextet c1
        let s2 ← charSextet c2
        let s3 ← charSextet c3
        pure [s1 * 4 + s2 / 16, s2 % 16 * 16 + s3 / 4]
      else do
        let s1 ← charSextet c1
        let s2 ← charSextet c2
        let s3 ← charSextet c3
        let s4 ← charSextet c4
        let tl ← b64decode rest
        pure ((s1 * 4 + s2 / 16) :: (s2 % 16 * 16 + s3 / 4) ::
          (s3 % 4 * 64 + s4) :: tl)
  | _ => none

/-- `bytes.hex()`: lowercase hex, two digits per byte. -/
def hexEncode : List Nat → List Char
  | [] => []
  | b :: t => hexDigitChar (b / 16 % 16) :: hexDigitChar (b % 16) :: hexEncode t

/-! ## `key_manager.py` — KeyManager -/

namespace KeyManager

/-- `KeyManager.sign_claim`: raises when no private key is loaded; else
removes any existing `signature` field from a copy, serializes the rest to
canonical JSON (sorted keys, separators `(',', ':')`), signs those bytes and
attaches the base64-encoded signature.  The RSA-PSS primitive is the
abstract function `sk` from message to signature bytes. -/
def sign_claim (priv : Option (List Char → List Nat)) (claim : Claim) :
    Except String Claim :=
  match priv with
  | none => .error "Private key not loaded"
  | some sk =>
      let claim_copy := removeField claim "signature"
      let canonical_json := canonicalJson claim_copy
      let signature := sk canonical_json
      .ok (setField claim_copy "signature" (.str ⟨b64encode signature⟩))

/-- `KeyManager.verify_signature`: raises when no public key is loaded;
returns `false` when the claim has no `signature` field; base64-decodes the
signature *outside* the try block (so a bad encoding raises, mirroring the
source); recomputes the canonical JSON of the claim without the signature
and checks it with the abstract verifier `vk` (the try/except around the
cryptographic check maps a mismatch to `false`). -/
def verify_signature (pub : Option (List Nat → List Char → Bool))
    (claim : Claim) : Except String Bool :=
  match pub with
  | none => .error "Public key not loaded"
  | some vk =>
      match lookupField claim "signature" with
      | none => .ok false
      | some (.str s) =>
          match b64decode s.data with
          | none => .error "binascii.Error: invalid base64-encoded string"
          | some signature =>
              let claim_copy := removeField claim "signature"
              .ok (vk signature (canonicalJson claim_copy))
      | some _ => .error "TypeError: argument should be bytes or ASCII string"

end KeyManager

/-! ## `linkedtrust_client.py` — LinkedTrustClient -/

namespace LinkedTrustClient

/-- `LinkedTrustClient.sign_claim`: with no private key it logs a warning
and returns the claim *unsigned*; otherwise it removes any `signature`
field, serializes with `json.dumps(claim_copy, sort_keys=True)` — the
*default* separators — signs, and attaches the signature `hex()`-encoded.
(The non-RSA-key branch of the source also returns the claim unchanged;
the abstract key here is always the RSA signing function.) -/
def sign_claim (priv : Option (List Char → List Nat)) (claim : Claim) :
    Except String Claim :=
  match priv with
  | none => .ok claim
  | some sk =>
      let claim_copy := removeField claim "signature"
      let message := defaultJson claim_copy
      let signature := sk message
      .ok (setField claim_copy "signature" (.str ⟨hexEncode signature⟩))

/-- `LinkedTrustClient.validate_claim`: every one of `subject`, `claim`,
`statement` must be present and truthy, and the `claim` value must be one
of the three recognized types. -/
def validate_claim (claim : Claim) : Bool :=
  (match lookupField claim "subject" with
   | some v => pyTruthy v
   | none => false) &&
  (match lookupField claim "claim" with
   | some v => pyTruthy v
   | none => false) &&
  (match lookupField claim "statement" with
   | some v => pyTruthy v
   | none => false) &&
  (match lookupField claim "claim" with
   | some (.str s) => s == "impact" || s == "rated" || s == "same_as"
   | _ => false)

/-- `LinkedTrustClient.format_claim`: fill in defaults for
`effectiveDate` (the current time, passed in as `now`), `howKnown`, and
`confidence` (0.9 when a `statement` key is present, else 0.7). -/
def format_claim (now : String) (claim : Claim) : Claim :=
  let c1 := if containsKey claim "effectiveDate" then claim
            else setField claim "effectiveDate" (.str now)
  let c2 := if containsKey c1 "howKnown" then c1
            else setField c1 "howKnown" (.str "WEB_DOCUMENT")
  if containsKey c2 "confidence" then c2
  else if containsKey c2 "statement" then
    setField c2 "confidence" (.float false 0 [9])
  else setField c2 "confidence" (.float false 0 [7])

/-- `LinkedTrustClient.submit_claim`: raise `ValueError` when validation
fails, else format, sign when a private key is present, and POST.  The
HTTP POST is outside the specified core (network collaborators are
excluded); it is abstracted as the total function `post` returning the
response body. -/
def submit_claim (priv : Option (List Char → List Nat)) (now : String)
    (post : Claim → String) (claim : Claim) : Except String String :=
  if validate_claim claim = false then .error "Invalid claim format"
  else
    let formatted_claim := format_claim now claim
    match priv with
    | some _ =>
        match sign_claim priv formatted_claim with
        | .ok signed_claim => .ok (post signed_claim)
        | .error e => .error e
    | none => .ok (post formatted_claim)

end LinkedTrustClient

/-! ## `src/claim_extractor/llm_extract.py` — ClaimExtractor -/

/-- A full JSON value, as produced by `json.loads` on an LLM response.
JSON numbers are modelled as integers: the parsing behaviour the claims
exercise involves no fractional numbers. -/
inductive PyVal : Type where
  | str (s : String)
  | num (n : Int)
  | bool (b : Bool)
  | null
  | list (l : List PyVal)
  | dict (d : List (String × PyVal))

/-- A claim record as parsed from the LLM response: a JSON object. -/
abbrev FClaim : Type := List (String × PyVal)

/-- `d.get(k)` on a parsed JSON object. -/
def pyGet : FClaim → String → Option PyVal
  | [], _ => none
  | (k0, v0) :: t, k => if k0 = k then some v0 else pyGet t k

/-- Python truthiness of a JSON value. -/
def pyTruthyP : PyVal → Bool
  | .str s => s ≠ ""
  | .num n => n ≠ 0
  | .bool b => b
  | .null => false
  | .list l => !l.isEmpty
  | .dict d => !d.isEmpty

/-- `str.lower()` (ASCII case folding; the configured keyword lists are
all ASCII). -/
def pyLower (s : List Char) : List Char := s.map Char.toLower

/-- Does `pat` begin `s`? -/
def leadsWith : List Char → List Char → Bool
  | [], _ => true
  | _ :: _, [] => false
  | p :: ps, c :: cs => p == c && leadsWith ps cs

/-- Python's substring test `pat in s`. -/
def occursIn (pat : List Char) : List Char → Bool
  | [] => leadsWith pat []
  | c :: cs => leadsWith pat (c :: cs) || occursIn pat cs

namespace ClaimExtractor

/-- `self.future_words`, as configured in `__init__`. -/
def future_words : List String :=
  ["will", "plans", "exploring", "aims", "hopes", "seeks", "intends",
   "could", "would", "may", "might", "potential", "possibly",
   "future", "upcoming", "planned", "next year", "in the future",
   "working to", "trying to", "seeking to", "looking to"]

/-- `self.mission_indicators`, as configured in `__init__`. -/
def mission_indicators : List String :=
  ["bringing", "providing", "ensuring", "mission", "vision",
   "committed to", "dedicated to", "our goal", "we believe"]

/-- The `vague_patterns` of `_is_vague_claim`. -/
def vague_patterns : List String :=
  ["no complaints", "improved quality", "better results",
   "increased satisfaction", "enhanced performance"]

/-- The `past_tense_verbs` list of `_filter_claims`. -/
def past_tense_verbs : List String :=
  ["built", "trained", "provided", "reduced", "served", "delivered",
   "created", "established", "implemented", "completed", "achieved",
   "distributed", "vaccinated", "treated", "educated", "improved"]

/-- `_contains_future_words`: case-insensitive substring match against the
future-tense markers. -/
def contains_future_words (text : String) : Bool :=
  future_words.any (fun w => occursIn w.data (pyLower text.data))

/-- `_contains_mission_indicators`. -/
def contains_mission_indicators (text : String) : Bool :=
  mission_indicators.any (fun w => occursIn w.data (pyLower text.data))

/-- `_is_vague_claim`. -/
def is_vague_claim (text : String) : Bool :=
  vague_patterns.any (fun w => occursIn w.data (pyLower text.data))

/-- `has_past_tense` of `_filter_claims`. -/
def has_past_tense (text : String) : Bool :=
  past_tense_verbs.any (fun w => occursIn w.data (pyLower text.data))

/-- `has_numbers = re.search(r'\d+', statement)`. -/
def has_numbers (text : String) : Bool :=
  text.data.any (fun c => c.isDigit)

/-- The decision the `_filter_claims` loop body takes on one claim:
`statement = claim.get("statement", "")`; a falsy statement is skipped;
the three rejection checks run in order; otherwise the claim is kept
exactly when it has a past-tense verb or a numeral.  Calling the
string predicates on a truthy non-string statement raises
`AttributeError` (`.lower()` on a non-str), modelled as `.error`. -/
def keepClaim (claim : FClaim) : Except String Bool :=
  let statement := (pyGet claim "statement").getD (.str "")
  if pyTruthyP statement = false then .ok false
  else
    match statement with
    | .str s =>
        if contains_future_words s then .ok false
        else if contains_mission_indicators s then .ok false
        else if is_vague_claim s then .ok false
        else .ok (has_past_tense s || has_numbers s)
    | _ => .error "AttributeError: lower"

/-- `_filter_claims`: the per-claim decision folded over the input in
order, a raise in the loop body propagating out. -/
def filter_claims : List FClaim → Except String (List FClaim)
  | [] => .ok []
  | claim :: rest =>
      match keepClaim claim with
      | .error e => .error e
      | .ok keep =>
          match filter_claims rest with
          | .error e => .error e
          | .ok tail => .ok (if keep then claim :: tail else tail)

end ClaimExtractor

/-! ## The JSON-parse step of `ClaimExtractor.extract_claims`
(`json.loads` plus the regex fallback). -/

/-- One hex digit as accepted by a JSON `\uXXXX` escape. -/
def jsonHexDigit (c : Char) : Option Nat :=
  if '0' ≤ c ∧ c ≤ '9' then some (c.toNat - 48)
  else if 'a' ≤ c ∧ c ≤ 'f' then some (c.toNat - 87)
  else if 'A' ≤ c ∧ c ≤ 'F' then some (c.toNat - 55)
  else none

/-- Four hex digits of a `\uXXXX` escape. -/
def jsonHex4 (a b c d : Char) : Option Nat := do
  let va ← jsonHexDigit a
  let vb ← jsonHexDigit b
  let vc ← jsonHexDigit c
  let vd ← jsonHexDigit d
  pure (va * 4096 + vb * 256 + vc * 16 + vd)

/-- JSON string-body parser (after the opening quote): body characters and
the input after the closing quote.  Escapes follow `json.loads`: the short
escapes, `\uXXXX`, and surrogate pairs; unescaped control characters are
rejected; a lone surrogate (representable in a Python str but not in a
Lean `Char`) is rejected. -/
def parseStrAux : List Char → Option (List Char × List Char)
  | [] => none
  | '"' :: r => some ([], r)
  | '\\' :: e =>
      match e with
      | '"' :: r => do
          let (s, rest) ← parseStrAux r
          pure ('"' :: s, rest)
      | '\\' :: r => do
          let (s, rest) ← parseStrAux r
          pure ('\\' :: s, rest)
      | '/' :: r => do
          let (s, rest) ← parseStrAux r
          pure ('/' :: s, rest)
      | 'b' :: r => do
          let (s, rest) ← parseStrAux r
          pure (Char.ofNat 8 :: s, rest)
      | 'f' :: r => do
          let (s, rest) ← parseStrAux r
          pure (Char.ofNat 12 :: s, rest)
      | 'n' :: r => do
          let (s, rest) ← parseStrAux r
          pure ('\n' :: s, rest)
      | 'r' :: r => do
          let (s, rest) ← parseStrAux r
          pure ('\r' :: s, rest)
      | 't' :: r => do
          let (s, rest) ← parseStrAux r
          pure ('\t' :: s, rest)
      | 'u' :: a :: b :: c :: d :: r =>
          match jsonHex4 a b c d with
          | none => none
          | some n =>
              if 55296 ≤ n ∧ n < 56320 then
                match r with
                | '\\' :: 'u' :: a2 :: b2 :: c2 :: d2 :: r2 =>
                    match jsonHex4 a2 b2 c2 d2 with
                    | some m =>
                        if 56320 ≤ m ∧ m < 57344 then do
                          let (s, rest) ← parseStrAux r2
                          pure (Char.ofNat
                            ((n - 55296) * 1024 + (m - 56320) + 65536) :: s,
                            rest)
                        else none
                    | none => none
                | _ => none
              else if 56320 ≤ n ∧ n < 57344 then none
              else do
                let (s, rest) ← parseStrAux r
                pure (Char.ofNat n :: s, rest)
      | _ => none
  | c :: r =>
      if c.toNat < 32 then none
      else do
        let (s, rest) ← parseStrAux r
        pure (c :: s, rest)

/-- JSON insignificant whitespace. -/
def skipWs : List Char → List Char
  | [] => []
  | c :: t =>
      if c = ' ' ∨ c = '\t' ∨ c = '\n' ∨ c = '\r' then skipWs t else c :: t

/-- Digit run at the head of the input as a number (at least one digit). -/
def parseNatNum (l : List Char) : Option (Nat × List Char) :=
  let ds := l.takeWhile (fun c => c.isDigit)
  if ds = [] then none
  else some (ds.foldl (fun a c => 10 * a + (c.toNat - 48)) 0,
    l.dropWhile (fun c => c.isDigit))

mutual

/-- JSON value parser (fuel-indexed recursive descent). -/
def parseVal : Nat → List Char → Option (PyVal × List Char)
  | 0, _ => none
  | fuel + 1, l =>
      match skipWs l with
      | [] => none
      | c :: r =>
          if c = '"' then
            (parseStrAux r).map (fun p => (PyVal.str ⟨p.1⟩, p.2))
          else if c = '[' then
            match skipWs r with
            | c2 :: r2 =>
                if c2 = ']' then some (.list [], r2)
                else (parseElems fuel (c2 :: r2)).map
                  (fun p => (PyVal.list p.1, p.2))
            | [] => none
          else if c = lbrace then
            match skipWs r with
            | c2 :: r2 =>
                if c2 = rbrace then some (.dict [], r2)
                else (parseMembers fuel (c2 :: r2)).map
                  (fun p => (PyVal.dict p.1, p.2))
            | [] => none
          else if c = 't' then
            match r with
            | 'r' :: 'u' :: 'e' :: rest => some (.bool true, rest)
            | _ => none
          else if c = 'f' then
            match r with
            | 'a' :: 'l' :: 's' :: 'e' :: rest => some (.bool false, rest)
            | _ => none
          else if c = 'n' then
            match r with
            | 'u' :: 'l' :: 'l' :: rest => some (.null, rest)
            | _ => none
          else if c = '-' then
            (parseNatNum r).map (fun p => (PyVal.num (-(p.1 : Int)), p.2))
          else if c.isDigit then
            (parseNatNum (c :: r)).map (fun p => (PyVal.num (p.1 : Int), p.2))
          else none

/-- Comma-separated array elements up to the closing bracket. -/
def parseElems : Nat → List Char → Option (List PyVal × List Char)
  | 0, _ => none
  | fuel + 1, l => do
      let (v, r) ← parseVal fuel l
      match skipWs r with
      | c :: r2 =>
          if c = ',' then do
            let (vs, r3) ← parseElems fuel r2
            pure (v :: vs, r3)
          else if c = ']' then pure ([v], r2)
          else none
      | [] => none

/-- Comma-separated object members up to the closing brace. -/
def parseMembers : Nat → List Char →
    Option (List (String × PyVal) × List Char)
  | 0, _ => none
  | fuel + 1, l =>
      match skipWs l with
      | c :: r =>
          if c = '"' then do
            let (key, r1) ← parseStrAux r
            match skipWs r1 with
            | c2 :: r2 =>
                if c2 = ':' then do
                  let (v, r3) ← parseVal fuel r2
                  match skipWs r3 with
                  | c3 :: r4 =>
                      if c3 = ',' then do
                        let (ms, r5) ← parseMembers fuel r4
                        pure ((⟨key⟩, v) :: ms, r5)
                      else if c3 = rbrace then pure ([(⟨key⟩, v)], r4)
                      else none
                  | [] => none
                else none
            | [] => none
          else none
      | [] => none

end

/-- `json.loads`: parse one JSON document, requiring the whole input to be
consumed (Python raises `JSONDecodeError` on extra data — `none` here). -/
def jsonLoads (s : String) : Option PyVal :=
  match parseVal (s.data.length + 1) s.data with
  | some (v, rest) => if skipWs rest = [] then some v else none
  | none => none

/-- The fallback `re.match(r'[^\[]+(\[[^\]]+\])[^\]]*$', content)` of
`extract_claims`: succeeds when at least one non-`[` character precedes the
first `[`, at least one non-`]` character follows it before the first `]`,
and no `]` occurs afterwards; the captured group runs from the first `[`
through the first following `]`. -/
def reMatchArray (content : List Char) : Option (List Char) :=
  let pre := content.takeWhile (fun c => c ≠ '[')
  let rest := content.dropWhile (fun c => c ≠ '[')
  if pre = [] then none
  else
    match rest with
    | '[' :: r =>
        let mid := r.takeWhile (fun c => c ≠ ']')
        let rest2 := r.dropWhile (fun c => c ≠ ']')
        if mid = [] then none
        else
          match rest2 with
          | ']' :: post =>
              if post.contains ']' then none
              else some ('[' :: mid ++ [']'])
          | _ => none
    | _ => none

/-- Is a parsed value a JSON array? -/
def PyVal.isList : PyVal → Bool
  | .list _ => true
  | _ => false

/-- Python `len()` on a parsed JSON value: defined for sized values
(strings, arrays, objects); numbers, booleans and `None` have no `len()`
and raise `TypeError`. -/
def pyLen : PyVal → Option Nat
  | .str s => some s.length
  | .list l => some l.length
  | .dict d => some d.length
  | _ => none

/-- The `print(f"... \x7blen(parsed_response)\x7d claims")` diagnostic both
copies of `extract_claims` run right after a successful parse: returns the
value unchanged when it is sized, and raises `TypeError` (uncaught — the
surrounding `except` clauses catch only `json.JSONDecodeError`) otherwise.
The exception text is abbreviated. -/
def lenDiag (v : PyVal) : Except String PyVal :=
  match pyLen v with
  | some _ => .ok v
  | none => .error "TypeError: object has no len()"

/-- The parse phase of `ClaimExtractor.extract_claims`, shared by both
copies of `llm_extract.py`: strict `json.loads` first; on failure the regex
fallback, parsing the captured array; on failure of both, the empty list.
Each successful parse is followed by the `len()` diagnostic print, so a
parsed value with no `len()` escapes as an uncaught `TypeError`; otherwise
the parsed value is returned as-is (a Python value of any JSON type). -/
def extract_claims_parse (content : String) : Except String PyVal :=
  match jsonLoads content with
  | some v => lenDiag v
  | none =>
      match reMatchArray content.data with
      | some captured =>
          match jsonLoads ⟨captured⟩ with
          | some v => lenDiag v
          | none => .ok (.list [])
      | none => .ok (.list [])

/-- Did the parse step return normally with a JSON array? False both when
it returns a non-array value and when it raises. -/
def isListOk : Except String PyVal → Bool
  | .ok v => v.isList
  | .error _ => false

/-! ## Decoding helpers used only in proofs -/

/-- Read the low half of a surrogate pair after a high surrogate `n`. -/
def decodeSurrogatePair (n : Nat) : List Char → Option (Char × List Char)
  | '\\' :: 'u' :: a2 :: b2 :: c2 :: d2 :: r2 =>
      (jsonHex4 a2 b2 c2 d2).bind (fun m =>
        if 56320 ≤ m ∧ m < 57344 then
          some (Char.ofNat ((n - 55296) * 1024 + (m - 56320) + 65536), r2)
        else none)
  | _ => none

/-- Read one `\uXXXX` escape (with a possible surrogate continuation). -/
def decodeEscU (a b c d : Char) (r : List Char) :
    Option (Char × List Char) :=
  (jsonHex4 a b c d).bind (fun n =>
    if 55296 ≤ n ∧ n < 56320 then decodeSurrogatePair n r
    else some (Char.ofNat n, r))

/-- Read the remainder of an escape sequence after the backslash. -/
def decodeEscSlash : List Char → Option (Char × List Char)
  | '"' :: r => some ('"', r)
  | '\\' :: r => some ('\\', r)
  | 'n' :: r => some ('\n', r)
  | 'r' :: r => some ('\r', r)
  | 't' :: r => some ('\t', r)
  | 'b' :: r => some (Char.ofNat 8, r)
  | 'f' :: r => some (Char.ofNat 12, r)
  | 'u' :: a :: b :: c :: d :: r => decodeEscU a b c d r
  | _ => none

/-- Left inverse of `escapeChar`: read back one escaped character.  Surrogate
pairs are recombined; values that `escapeChar` never produces may decode
arbitrarily (only the inverse property on its image is used). -/
def decodeEsc : List Char → Option (Char × List Char)
  | [] => none
  | c0 :: t => if c0 ≠ '\\' then some (c0, t) else decodeEscSlash t

/-- Numeric value of a digit string (left inverse of `natDigits`). -/
def digitsVal (l : List Char) : Nat :=
  l.foldl (fun a c => 10 * a + (c.toNat - 48)) 0

/-- A fixed-width (three bytes per character) encoding of a message, used
to instantiate the abstract signature scheme on concrete inputs. -/
def charBytes (c : Char) : List Nat :=
  [c.toNat / 65536, c.toNat / 256 % 256, c.toNat % 256]

/-- Byte encoding of a whole message. -/
def strBytes : List Char → List Nat
  | [] => []
  | c :: t => charBytes c ++ strBytes t

/-! # Theorems -/

/-! ## Dictionary operation lemmas -/

theorem lookup_setField_self (c : Claim) (k : String) (v : JVal) :
    lookupField (setField c k v) k = some v := by
  induction c with
  | nil => simp [setField, lookupField]
  | cons p t ih =>
      obtain ⟨k0, v0⟩ := p
      by_cases h : k0 = k
      · simp [setField, h, lookupField]
      · simp [setField, h, lookupField, ih]

theorem lookup_setField_other (c : Claim) (k k' : String) (v : JVal)
    (hne : k' ≠ k) : lookupField (setField c k v) k' = lookupField c k' :=
  by
  induction c with
  | nil => simp [setField, lookupField, Ne.symm hne]
  | cons p t ih =>
      obtain ⟨k0, v0⟩ := p
      by_cases h : k0 = k
      · subst h
        simp [setField, lookupField, Ne.symm hne]
      · simp [setField, h, lookupField, ih]

theorem keys_removeField (c : Claim) (k : String) :
    ∀ p ∈ removeField c k, p.1 ≠ k := by
  induction c with
  | nil => simp [removeField]
  | cons p0 t ih =>
      obtain ⟨k0, v0⟩ := p0
      by_cases h : k0 = k
      · simpa [removeField, h] using ih
      · intro p hp
        rw [removeField] at hp
        simp only [if_neg h, List.mem_cons] at hp
        rcases hp with hp | hp
        · subst hp; exact h
        · exact ih p hp

theorem removeField_of_not_mem (c : Claim) (k : String)
    (h : ∀ p ∈ c, p.1 ≠ k) : removeField c k = c := by
  induction c with
  | nil => rfl
  | cons p0 t ih =>
      obtain ⟨k0, v0⟩ := p0
      rw [removeField]
      rw [if_neg (h (k0, v0) (List.mem_cons_self _ _))]
      rw [ih (fun p hp => h p (List.mem_cons_of_mem _ hp))]

theorem setField_of_not_mem (c : Claim) (k : String) (v : JVal)
    (h : ∀ p ∈ c, p.1 ≠ k) : setField c k v = c ++ [(k, v)] := by
  induction c with
  | nil => rfl
  | cons p0 t ih =>
      obtain ⟨k0, v0⟩ := p0
      rw [setField]
      rw [if_neg (h (k0, v0) (List.mem_cons_self _ _))]
      rw [ih (fun p hp => h p (List.mem_cons_of_mem _ hp))]
      rfl

/-- Removing the key just set (when it was absent) gives back the dict. -/
theorem removeField_setField_self (c : Claim) (k : String) (v : JVal)
    (h : ∀ p ∈ c, p.1 ≠ k) : removeField (setField c k v) k = c := by
  rw [setField_of_not_mem c k v h]
  induction c with
  | nil => simp [removeField]
  | cons p0 t ih =>
      obtain ⟨k0, v0⟩ := p0
      rw [List.cons_append, removeField]
      rw [if_neg (h (k0, v0) (List.mem_cons_self _ _))]
      rw [ih (fun p hp => h p (List.mem_cons_of_mem _ hp))]

/-- `removeField` at one key commutes past `setField` at a different key. -/
theorem removeField_setField_comm (c : Claim) (k k' : String) (v : JVal)
    (hne : k ≠ k') :
    removeField (setField c k v) k' = setField (removeField c k') k v := by
  induction c with
  | nil => simp [setField, removeField, hne]
  | cons p0 t ih =>
      obtain ⟨k0, v0⟩ := p0
      by_cases h0 : k0 = k
      · subst h0
        rw [setField, if_pos rfl, removeField, if_neg hne, removeField,
          if_neg hne, setField, if_pos rfl]
      · by_cases h1 : k0 = k'
        · subst h1
          rw [setField, if_neg h0, removeField, if_pos rfl, removeField,
            if_pos rfl, ih]
        · rw [setField, if_neg h0, removeField, if_neg h1, removeField,
            if_neg h1, setField, if_neg h0, ih]


/-! ## Digit and hex character lemmas -/

theorem digitChar_fin_isDigit : ∀ d : Fin 10, (digitChar d.1).isDigit = true := by
  decide

theorem digitChar_fin_toNat : ∀ d : Fin 10, (digitChar d.1).toNat = 48 + d.1 := by
  decide

theorem jsonHexDigit_hexDigitChar_fin :
    ∀ d : Fin 16, jsonHexDigit (hexDigitChar d.1) = some d.1 := by
  decide

theorem mem_natDigits_isDigit (n : Nat) :
    ∀ c ∈ natDigits n, c.isDigit = true := by
  induction n using natDigits.induct with
  | case1 n h =>
      rw [natDigits, dif_pos h]
      intro c hc
      rw [List.mem_singleton] at hc
      subst hc
      exact digitChar_fin_isDigit ⟨n, h⟩
  | case2 n h ih =>
      rw [natDigits, dif_neg h]
      intro c hc
      rcases List.mem_append.mp hc with hc | hc
      · exact ih c hc
      · rw [List.mem_singleton] at hc
        subst hc
        exact digitChar_fin_isDigit ⟨n % 10, Nat.mod_lt _ (by omega)⟩

theorem natDigits_ne_nil (n : Nat) : natDigits n ≠ [] := by
  rw [natDigits]
  split
  · simp
  · simp

theorem digitsVal_append_singleton (l : List Char) (c : Char) :
    digitsVal (l ++ [c]) = 10 * digitsVal l + (c.toNat - 48) := by
  simp [digitsVal, List.foldl_append]

theorem digitsVal_natDigits (n : Nat) : digitsVal (natDigits n) = n := by
  induction n using natDigits.induct with
  | case1 n h =>
      rw [natDigits, dif_pos h]
      have h2 : (digitChar n).toNat = 48 + n := digitChar_fin_toNat ⟨n, h⟩
      simp only [digitsVal, List.foldl_cons, List.foldl_nil]
      omega
  | case2 n h ih =>
      rw [natDigits, dif_neg h, digitsVal_append_singleton, ih]
      have h2 : (digitChar (n % 10)).toNat = 48 + n % 10 :=
        digitChar_fin_toNat ⟨n % 10, Nat.mod_lt _ (by omega)⟩
      omega

theorem natDigits_inj {m n : Nat} (h : natDigits m = natDigits n) : m = n := by
  have := digitsVal_natDigits m
  rw [h, digitsVal_natDigits] at this
  omega

/-! ## base64 round trip -/

theorem charSextet_sextetChar : ∀ n : Fin 64, charSextet (sextetChar n.1) = some n.1 := by
  decide

theorem sextetChar_ne_pad : ∀ n : Fin 64, sextetChar n.1 ≠ '=' := by
  decide

theorem b64decode_b64encode (bs : List Nat) (h : ∀ b ∈ bs, b < 256) :
    b64decode (b64encode bs) = some bs := by
  induction bs using b64encode.induct with
  | case1 => rfl
  | case2 a =>
      have ha : a < 256 := h a (by simp)
      rw [b64encode]
      rw [b64decode]
      rw [if_pos ⟨rfl, rfl, rfl⟩]
      rw [charSextet_sextetChar ⟨a / 4, by omega⟩]
      rw [charSextet_sextetChar ⟨a % 4 * 16, by omega⟩]
      simp
      omega
  | case3 a b =>
      have ha : a < 256 := h a (by simp)
      have hb : b < 256 := h b (by simp)
      rw [b64encode]
      rw [b64decode]
      rw [if_neg (fun hc => sextetChar_ne_pad ⟨b % 16 * 4, by omega⟩ hc.1)]
      rw [if_pos ⟨rfl, rfl⟩]
      rw [charSextet_sextetChar ⟨a / 4, by omega⟩]
      rw [charSextet_sextetChar ⟨a % 4 * 16 + b / 16, by omega⟩]
      rw [charSextet_sextetChar ⟨b % 16 * 4, by omega⟩]
      simp
      omega
  | case4 a b c rest ih =>
      have ha : a < 256 := h a (by simp)
      have hb : b < 256 := h b (by simp)
      have hc : c < 256 := h c (by simp)
      have hrest : ∀ x ∈ rest, x < 256 := fun x hx =>
        h x (by simp [hx])
      rw [b64encode]
      rw [b64decode]
      rw [if_neg (fun hcond =>
        sextetChar_ne_pad ⟨b % 16 * 4 + c / 64, by omega⟩ hcond.1)]
      rw [if_neg (fun hcond =>
        sextetChar_ne_pad ⟨c % 64, by omega⟩ hcond.1)]
      rw [charSextet_sextetChar ⟨a / 4, by omega⟩]
      rw [charSextet_sextetChar ⟨a % 4 * 16 + b / 16, by omega⟩]
      rw [charSextet_sextetChar ⟨b % 16 * 4 + c / 64, by omega⟩]
      rw [charSextet_sextetChar ⟨c % 64, by omega⟩]
      rw [ih hrest]
      simp
      omega


/-! ## Escape round trip and injectivity -/

theorem jsonHexDigit_hexDigitChar (d : Nat) (h : d < 16) :
    jsonHexDigit (hexDigitChar d) = some d :=
  jsonHexDigit_hexDigitChar_fin ⟨d, h⟩

theorem jsonHex4_hex4 (n : Nat) (h : n < 65536) :
    jsonHex4 (hexDigitChar (n / 4096 % 16)) (hexDigitChar (n / 256 % 16))
      (hexDigitChar (n / 16 % 16)) (hexDigitChar (n % 16)) = some n := by
  rw [jsonHex4]
  rw [jsonHexDigit_hexDigitChar (n / 4096 % 16) (Nat.mod_lt _ (by omega))]
  rw [jsonHexDigit_hexDigitChar (n / 256 % 16) (Nat.mod_lt _ (by omega))]
  rw [jsonHexDigit_hexDigitChar (n / 16 % 16) (Nat.mod_lt _ (by omega))]
  rw [jsonHexDigit_hexDigitChar (n % 16) (Nat.mod_lt _ (by omega))]
  show some _ = some n
  congr 1
  omega

theorem char_valid_cases (c : Char) :
    c.toNat < 55296 ∨ (57344 ≤ c.toNat ∧ c.toNat < 1114112) := by
  have h := c.valid
  rcases h with h | h
  · exact Or.inl h
  · exact Or.inr ⟨by exact_mod_cast h.1, by exact_mod_cast h.2⟩

set_option maxHeartbeats 2000000 in
theorem decodeEsc_escapeChar (c : Char) (r : List Char) :
    decodeEsc (escapeChar c ++ r) = some (c, r) := by
  have hval := char_valid_cases c
  rw [escapeChar]
  split_ifs with h1 h2 h3 h4 h5 h6 h7 h8 h9
  · subst h1; rfl
  · subst h2; rfl
  · subst h3; rfl
  · subst h4; rfl
  · subst h5; rfl
  · have hc : c = Char.ofNat 8 := by rw [← h6, Char.ofNat_toNat]
    rw [hc]; rfl
  · have hc : c = Char.ofNat 12 := by rw [← h7, Char.ofNat_toNat]
    rw [hc]; rfl
  · -- BMP \uXXXX escape
    simp only [hex4, List.cons_append, List.nil_append]
    rw [decodeEsc, if_neg (by simp), decodeEscSlash, decodeEscU,
      jsonHex4_hex4 c.toNat h9, Option.some_bind, if_neg (by omega),
      Char.ofNat_toNat]
  · -- astral surrogate pair
    have hlt : c.toNat < 1114112 := by omega
    simp only [hex4, List.cons_append, List.nil_append, List.append_assoc]
    rw [decodeEsc, if_neg (by simp), decodeEscSlash, decodeEscU,
      jsonHex4_hex4 (55296 + (c.toNat - 65536) / 1024) (by omega),
      Option.some_bind, if_pos (by omega), decodeSurrogatePair,
      jsonHex4_hex4 (56320 + (c.toNat - 65536) % 1024) (by omega),
      Option.some_bind, if_pos (by omega)]
    have harith : (55296 + (c.toNat - 65536) / 1024 - 55296) * 1024 +
        (56320 + (c.toNat - 65536) % 1024 - 56320) + 65536 = c.toNat := by
      omega
    rw [harith, Char.ofNat_toNat]
  · -- plain character
    show decodeEsc (c :: r) = some (c, r)
    rw [decodeEsc, if_pos h2]

theorem escapeChar_append_inj {c1 c2 : Char} {r1 r2 : List Char}
    (h : escapeChar c1 ++ r1 = escapeChar c2 ++ r2) : c1 = c2 ∧ r1 = r2 := by
  have e1 := decodeEsc_escapeChar c1 r1
  have e2 := decodeEsc_escapeChar c2 r2
  rw [h, e2] at e1
  injection e1 with e
  exact ⟨(Prod.ext_iff.mp e.symm).1, (Prod.ext_iff.mp e.symm).2⟩

theorem escapeChar_cons_ne_quote (c : Char) :
    ∃ hd tl, escapeChar c = hd :: tl ∧ hd ≠ '"' := by
  rw [escapeChar]
  split_ifs with h1 h2 h3 h4 h5 h6 h7 h8 h9
  · exact ⟨'\\', _, rfl, by decide⟩
  · exact ⟨'\\', _, rfl, by decide⟩
  · exact ⟨'\\', _, rfl, by decide⟩
  · exact ⟨'\\', _, rfl, by decide⟩
  · exact ⟨'\\', _, rfl, by decide⟩
  · exact ⟨'\\', _, rfl, by decide⟩
  · exact ⟨'\\', _, rfl, by decide⟩
  · exact ⟨'\\', _, rfl, by decide⟩
  · exact ⟨'\\', 'u' :: hex4 (55296 + (c.toNat - 65536) / 1024) ++
      '\\' :: 'u' :: hex4 (56320 + (c.toNat - 65536) % 1024), by simp, by decide⟩
  · exact ⟨c, [], rfl, h1⟩

theorem escape_quote_inj :
    ∀ s1 s2 r1 r2, escape s1 ++ '"' :: r1 = escape s2 ++ '"' :: r2 →
      s1 = s2 ∧ r1 = r2 := by
  intro s1
  induction s1 with
  | nil =>
      intro s2 r1 r2 h
      cases s2 with
      | nil =>
          simp only [escape, List.nil_append, List.cons.injEq] at h
          exact ⟨rfl, h.2⟩
      | cons c2 t2 =>
          exfalso
          obtain ⟨hd, tl, heq, hne⟩ := escapeChar_cons_ne_quote c2
          simp only [escape, List.nil_append, heq, List.cons_append,
            List.cons.injEq] at h
          exact hne h.1.symm
  | cons c1 t1 ih =>
      intro s2 r1 r2 h
      cases s2 with
      | nil =>
          exfalso
          obtain ⟨hd, tl, heq, hne⟩ := escapeChar_cons_ne_quote c1
          simp only [escape, List.nil_append, heq, List.cons_append,
            List.cons.injEq] at h
          exact hne h.1
      | cons c2 t2 =>
          simp only [escape, List.append_assoc] at h
          obtain ⟨hc, ht⟩ := escapeChar_append_inj h
          obtain ⟨hs, hr⟩ := ih t2 r1 r2 ht
          exact ⟨by rw [hc, hs], hr⟩

/-! ## Character classes of rendered values -/

theorem isDigit_toNat {c : Char} (h : c.isDigit = true) :
    48 ≤ c.toNat ∧ c.toNat ≤ 57 := by
  simp only [Char.isDigit, decide_eq_true_eq, Bool.and_eq_true] at h
  obtain ⟨h1, h2⟩ := h
  constructor
  · exact h1
  · exact h2

theorem char_ne_of_toNat_ne {a b : Char} (h : a.toNat ≠ b.toNat) : a ≠ b :=
  fun he => h (congrArg Char.toNat he)

theorem isDigit_ne_comma {c : Char} (h : c.isDigit = true) : c ≠ ',' := by
  have hb := isDigit_toNat h
  have hv : (',' : Char).toNat = 44 := by decide
  exact char_ne_of_toNat_ne (by omega)

theorem isDigit_ne_rbrace {c : Char} (h : c.isDigit = true) : c ≠ rbrace := by
  have hb := isDigit_toNat h
  have hv : (rbrace : Char).toNat = 125 := by decide
  exact char_ne_of_toNat_ne (by omega)

theorem isDigit_ne_quote {c : Char} (h : c.isDigit = true) : c ≠ '"' := by
  have hb := isDigit_toNat h
  have hv : ('"' : Char).toNat = 34 := by decide
  exact char_ne_of_toNat_ne (by omega)

theorem isDigit_ne_minus {c : Char} (h : c.isDigit = true) : c ≠ '-' := by
  have hb := isDigit_toNat h
  have hv : ('-' : Char).toNat = 45 := by decide
  exact char_ne_of_toNat_ne (by omega)

theorem isDigit_ne_dot {c : Char} (h : c.isDigit = true) : c ≠ '.' := by
  have hb := isDigit_toNat h
  have hv : ('.' : Char).toNat = 46 := by decide
  exact char_ne_of_toNat_ne (by omega)

theorem mem_intRepr (n : Int) :
    ∀ c ∈ intRepr n, c.isDigit = true ∨ c = '-' := by
  cases n with
  | ofNat m =>
      intro c hc
      exact Or.inl (mem_natDigits_isDigit m c hc)
  | negSucc m =>
      intro c hc
      rcases List.mem_cons.mp hc with hc | hc
      · exact Or.inr hc
      · exact Or.inl (mem_natDigits_isDigit (m + 1) c hc)

theorem mem_floatBody (neg : Bool) (ip : Nat) (frac : List (Fin 10)) :
    ∀ c ∈ renderJVal (.float neg ip frac),
      c.isDigit = true ∨ c = '-' ∨ c = '.' := by
  intro c hc
  simp only [renderJVal, List.mem_append, List.mem_cons] at hc
  rcases hc with (hc | hc) | hc | hc
  · cases neg with
    | true => simp at hc; exact Or.inr (Or.inl hc)
    | false => simp at hc
  · exact Or.inl (mem_natDigits_isDigit ip c hc)
  · exact Or.inr (Or.inr hc)
  · rcases List.mem_map.mp hc with ⟨d, _, hd⟩
    subst hd
    exact Or.inl (digitChar_fin_isDigit d)

/-- Every character of a rendered non-string value is a digit, sign, dot or
letter of `true`/`false`/`null`. -/
theorem mem_renderJVal_nonstr (v : JVal) (hv : ∀ s, v ≠ JVal.str s) :
    ∀ c ∈ renderJVal v, c.isDigit = true ∨ c = '-' ∨ c = '.' ∨
      c = 't' ∨ c = 'r' ∨ c = 'u' ∨ c = 'e' ∨ c = 'f' ∨ c = 'a' ∨
      c = 'l' ∨ c = 's' ∨ c = 'n' := by
  intro c hc
  cases v with
  | str s => exact absurd rfl (hv s)
  | int n =>
      rcases mem_intRepr n c hc with h | h
      · exact Or.inl h
      · exact Or.inr (Or.inl h)
  | float neg ip frac =>
      rcases mem_floatBody neg ip frac c hc with h | h | h
      · exact Or.inl h
      · exact Or.inr (Or.inl h)
      · exact Or.inr (Or.inr (Or.inl h))
  | bool b =>
      cases b with
      | true => simp only [renderJVal, List.mem_cons] at hc; tauto
      | false => simp only [renderJVal, List.mem_cons] at hc; tauto
  | null => simp only [renderJVal, List.mem_cons] at hc; tauto

/-- Characters of rendered non-string values are never a comma, closing
brace, or double quote. -/
theorem mem_renderJVal_nonstr_safe (v : JVal) (hv : ∀ s, v ≠ JVal.str s) :
    ∀ c ∈ renderJVal v, c ≠ ',' ∧ c ≠ rbrace ∧ c ≠ '"' := by
  intro c hc
  rcases mem_renderJVal_nonstr v hv c hc with h | h | h | h | h | h | h | h
    | h | h | h | h
  · exact ⟨isDigit_ne_comma h, isDigit_ne_rbrace h, isDigit_ne_quote h⟩
  all_goals subst h
  all_goals refine ⟨by decide, ?_, by decide⟩
  all_goals simp [rbrace]

theorem renderJVal_nonstr_ne_nil (v : JVal) (hv : ∀ s, v ≠ JVal.str s) :
    renderJVal v ≠ [] := by
  cases v with
  | str s => exact absurd rfl (hv s)
  | int n =>
      cases n with
      | ofNat m => exact natDigits_ne_nil m
      | negSucc m => simp [renderJVal, intRepr]
  | float neg ip frac =>
      simp only [renderJVal, ne_eq, List.append_assoc, List.append_eq_nil]
      intro ⟨_, h, _⟩
      exact natDigits_ne_nil ip h
  | bool b => cases b <;> simp [renderJVal]
  | null => simp [renderJVal]

/-- Splitting a list at a terminator character is unique when the bodies
avoid the terminators. -/
theorem append_term_inj {P : Char → Prop} :
    ∀ (xs1 : List Char) (xs2 r1 r2 : List Char) (t1 t2 : Char),
      (∀ c ∈ xs1, P c) → (∀ c ∈ xs2, P c) → ¬P t1 → ¬P t2 →
      xs1 ++ t1 :: r1 = xs2 ++ t2 :: r2 →
      xs1 = xs2 ∧ t1 = t2 ∧ r1 = r2 := by
  intro xs1
  induction xs1 with
  | nil =>
      intro xs2 r1 r2 t1 t2 hx1 hx2 ht1 ht2 h
      cases xs2 with
      | nil =>
          simp only [List.nil_append, List.cons.injEq] at h
          exact ⟨rfl, h.1, h.2⟩
      | cons c2 u2 =>
          exfalso
          simp only [List.nil_append, List.cons_append, List.cons.injEq] at h
          exact ht1 (h.1 ▸ hx2 c2 (List.mem_cons_self _ _))
  | cons c1 u1 ih =>
      intro xs2 r1 r2 t1 t2 hx1 hx2 ht1 ht2 h
      cases xs2 with
      | nil =>
          exfalso
          simp only [List.nil_append, List.cons_append, List.cons.injEq] at h
          exact ht2 (h.1 ▸ hx1 c1 (List.mem_cons_self _ _))
      | cons c2 u2 =>
          simp only [List.cons_append, List.cons.injEq] at h
          obtain ⟨hu, ht, hr⟩ := ih u2 r1 r2 t1 t2
            (fun c hc => hx1 c (List.mem_cons_of_mem _ hc))
            (fun c hc => hx2 c (List.mem_cons_of_mem _ hc)) ht1 ht2 h.2
          exact ⟨by rw [h.1, hu], ht, hr⟩

theorem intRepr_inj {n1 n2 : Int} (h : intRepr n1 = intRepr n2) : n1 = n2 := by
  cases n1 with
  | ofNat m1 =>
      cases n2 with
      | ofNat m2 =>
          rw [show intRepr (.ofNat m1) = natDigits m1 from rfl,
            show intRepr (.ofNat m2) = natDigits m2 from rfl] at h
          rw [natDigits_inj h]
      | negSucc m2 =>
          exfalso
          obtain ⟨hd, tl, hcons⟩ :=
            List.exists_cons_of_ne_nil (natDigits_ne_nil m1)
          rw [show intRepr (.ofNat m1) = natDigits m1 from rfl, hcons,
            show intRepr (.negSucc m2) = '-' :: natDigits (m2 + 1) from rfl]
            at h
          have hhd : hd ∈ natDigits m1 := hcons ▸ List.mem_cons_self _ _
          have := mem_natDigits_isDigit m1 hd hhd
          exact isDigit_ne_minus this (List.cons.inj h).1
  | negSucc m1 =>
      cases n2 with
      | ofNat m2 =>
          exfalso
          obtain ⟨hd, tl, hcons⟩ :=
            List.exists_cons_of_ne_nil (natDigits_ne_nil m2)
          rw [show intRepr (.ofNat m2) = natDigits m2 from rfl, hcons,
            show intRepr (.negSucc m1) = '-' :: natDigits (m1 + 1) from rfl]
            at h
          have hhd : hd ∈ natDigits m2 := hcons ▸ List.mem_cons_self _ _
          have := mem_natDigits_isDigit m2 hd hhd
          exact isDigit_ne_minus this (List.cons.inj h).1.symm
      | negSucc m2 =>
          rw [show intRepr (.negSucc m1) = '-' :: natDigits (m1 + 1) from rfl,
            show intRepr (.negSucc m2) = '-' :: natDigits (m2 + 1) from rfl]
            at h
          have hm : m1 + 1 = m2 + 1 := natDigits_inj (List.cons.inj h).2
          have : m1 = m2 := by omega
          rw [this]

theorem digitChar_fin_inj :
    ∀ d e : Fin 10, digitChar d.1 = digitChar e.1 → d = e := by
  decide

theorem fracMap_inj :
    ∀ f1 f2 : List (Fin 10),
      f1.map (fun d => digitChar d.1) = f2.map (fun d => digitChar d.1) →
      f1 = f2 := by
  intro f1
  induction f1 with
  | nil =>
      intro f2 h
      cases f2 with
      | nil => rfl
      | cons d2 t2 => simp at h
  | cons d1 t1 ih =>
      intro f2 h
      cases f2 with
      | nil => simp at h
      | cons d2 t2 =>
          simp only [List.map_cons, List.cons.injEq] at h
          rw [digitChar_fin_inj d1 d2 h.1, ih t2 h.2]


theorem renderJVal_nonstr_inj (v1 v2 : JVal)
    (hv1 : ∀ s, v1 ≠ JVal.str s) (hv2 : ∀ s, v2 ≠ JVal.str s)
    (h : renderJVal v1 = renderJVal v2) : v1 = v2 := by
  cases v1 with
  | str s => exact absurd rfl (hv1 s)
  | int n1 =>
      cases v2 with
      | str s => exact absurd rfl (hv2 s)
      | int n2 => rw [intRepr_inj (h : intRepr n1 = intRepr n2)]
      | float neg ip frac =>
          exfalso
          have hm : '.' ∈ renderJVal (JVal.int n1) := by
            rw [h]; simp [renderJVal]
          rcases mem_intRepr n1 '.' hm with hd | hd <;>
            exact absurd hd (by decide)
      | bool b =>
          exfalso
          cases b with
          | true =>
              have hm : 't' ∈ renderJVal (JVal.int n1) := by
                rw [h]; simp [renderJVal]
              rcases mem_intRepr n1 't' hm with hd | hd <;>
                exact absurd hd (by decide)
          | false =>
              have hm : 'f' ∈ renderJVal (JVal.int n1) := by
                rw [h]; simp [renderJVal]
              rcases mem_intRepr n1 'f' hm with hd | hd <;>
                exact absurd hd (by decide)
      | null =>
          exfalso
          have hm : 'n' ∈ renderJVal (JVal.int n1) := by
            rw [h]; simp [renderJVal]
          rcases mem_intRepr n1 'n' hm with hd | hd <;>
            exact absurd hd (by decide)
  | float neg1 ip1 frac1 =>
      cases v2 with
      | str s => exact absurd rfl (hv2 s)
      | int n2 =>
          exfalso
          have hm : '.' ∈ renderJVal (JVal.int n2) := by
            rw [← h]; simp [renderJVal]
          rcases mem_intRepr n2 '.' hm with hd | hd <;>
            exact absurd hd (by decide)
      | float neg2 ip2 frac2 =>
          simp only [renderJVal] at h
          cases neg1 with
          | false =>
              cases neg2 with
              | false =>
                  simp only [if_neg (by simp : ¬False), Bool.false_eq_true,
                    if_false, List.nil_append] at h
                  obtain ⟨h1, _, h3⟩ := append_term_inj (P := fun c => c.isDigit = true)
                    (natDigits ip1) (natDigits ip2) _ _ '.' '.'
                    (mem_natDigits_isDigit ip1) (mem_natDigits_isDigit ip2)
                    (by decide) (by decide) h
                  rw [natDigits_inj h1, fracMap_inj _ _ h3]
              | true =>
                  exfalso
                  simp only [Bool.false_eq_true, if_false, if_true,
                    List.nil_append, List.cons_append] at h
                  obtain ⟨hd, tl, hcons⟩ :=
                    List.exists_cons_of_ne_nil (natDigits_ne_nil ip1)
                  rw [hcons] at h
                  simp only [List.cons_append, List.cons.injEq] at h
                  have hhd : hd ∈ natDigits ip1 :=
                    hcons ▸ List.mem_cons_self _ _
                  exact isDigit_ne_minus (mem_natDigits_isDigit ip1 hd hhd) h.1
          | true =>
              cases neg2 with
              | true =>
                  simp only [if_true, List.cons_append, List.cons.injEq] at h
                  obtain ⟨h1, _, h3⟩ := append_term_inj (P := fun c => c.isDigit = true)
                    (natDigits ip1) (natDigits ip2) _ _ '.' '.'
                    (mem_natDigits_isDigit ip1) (mem_natDigits_isDigit ip2)
                    (by decide) (by decide) h.2
                  rw [natDigits_inj h1, fracMap_inj _ _ h3]
              | false =>
                  exfalso
                  simp only [Bool.false_eq_true, if_false, if_true,
                    List.nil_append, List.cons_append] at h
                  obtain ⟨hd, tl, hcons⟩ :=
                    List.exists_cons_of_ne_nil (natDigits_ne_nil ip2)
                  rw [hcons] at h
                  simp only [List.cons_append, List.cons.injEq] at h
                  have hhd : hd ∈ natDigits ip2 :=
                    hcons ▸ List.mem_cons_self _ _
                  exact isDigit_ne_minus (mem_natDigits_isDigit ip2 hd hhd)
                    h.1.symm
      | bool b =>
          exfalso
          cases b with
          | true =>
              have hm : 't' ∈ renderJVal (JVal.float neg1 ip1 frac1) := by
                rw [h]; simp [renderJVal]
              rcases mem_floatBody neg1 ip1 frac1 't' hm with hd | hd | hd <;>
                exact absurd hd (by decide)
          | false =>
              have hm : 'f' ∈ renderJVal (JVal.float neg1 ip1 frac1) := by
                rw [h]; simp [renderJVal]
              rcases mem_floatBody neg1 ip1 frac1 'f' hm with hd | hd | hd <;>
                exact absurd hd (by decide)
      | null =>
          exfalso
          have hm : 'n' ∈ renderJVal (JVal.float neg1 ip1 frac1) := by
            rw [h]; simp [renderJVal]
          rcases mem_floatBody neg1 ip1 frac1 'n' hm with hd | hd | hd <;>
            exact absurd hd (by decide)
  | bool b1 =>
      cases v2 with
      | str s => exact absurd rfl (hv2 s)
      | int n2 =>
          exfalso
          cases b1 with
          | true =>
              have hm : 't' ∈ renderJVal (JVal.int n2) := by
                rw [← h]; simp [renderJVal]
              rcases mem_intRepr n2 't' hm with hd | hd <;>
                exact absurd hd (by decide)
          | false =>
              have hm : 'f' ∈ renderJVal (JVal.int n2) := by
                rw [← h]; simp [renderJVal]
              rcases mem_intRepr n2 'f' hm with hd | hd <;>
                exact absurd hd (by decide)
      | float neg ip frac =>
          exfalso
          cases b1 with
          | true =>
              have hm : 't' ∈ renderJVal (JVal.float neg ip frac) := by
                rw [← h]; simp [renderJVal]
              rcases mem_floatBody neg ip frac 't' hm with hd | hd | hd <;>
                exact absurd hd (by decide)
          | false =>
              have hm : 'f' ∈ renderJVal (JVal.float neg ip frac) := by
                rw [← h]; simp [renderJVal]
              rcases mem_floatBody neg ip frac 'f' hm with hd | hd | hd <;>
                exact absurd hd (by decide)
      | bool b2 =>
          cases b1 <;> cases b2 <;> simp only [renderJVal] at h ⊢ <;>
            first
            | rfl
            | (exfalso; exact absurd h (by decide))
      | null =>
          exfalso
          cases b1 <;> simp only [renderJVal] at h <;>
            exact absurd h (by decide)
  | null =>
      cases v2 with
      | str s => exact absurd rfl (hv2 s)
      | int n2 =>
          exfalso
          have hm : 'n' ∈ renderJVal (JVal.int n2) := by
            rw [← h]; simp [renderJVal]
          rcases mem_intRepr n2 'n' hm with hd | hd <;>
            exact absurd hd (by decide)
      | float neg ip frac =>
          exfalso
          have hm : 'n' ∈ renderJVal (JVal.float neg ip frac) := by
            rw [← h]; simp [renderJVal]
          rcases mem_floatBody neg ip frac 'n' hm with hd | hd | hd <;>
            exact absurd hd (by decide)
      | bool b2 =>
          exfalso
          cases b2 <;> simp only [renderJVal] at h <;>
            exact absurd h (by decide)
      | null => rfl

theorem renderJVal_term_inj (v1 v2 : JVal) (t1 t2 : Char) (r1 r2 : List Char)
    (ht1 : t1 = ',' ∨ t1 = rbrace) (ht2 : t2 = ',' ∨ t2 = rbrace)
    (h : renderJVal v1 ++ t1 :: r1 = renderJVal v2 ++ t2 :: r2) :
    v1 = v2 ∧ t1 = t2 ∧ r1 = r2 := by
  by_cases hs1 : ∃ s, v1 = JVal.str s
  · obtain ⟨s1, rfl⟩ := hs1
    by_cases hs2 : ∃ s, v2 = JVal.str s
    · obtain ⟨s2, rfl⟩ := hs2
      simp only [renderJVal, List.cons_append, List.append_assoc,
        List.singleton_append, List.cons.injEq, true_and] at h
      obtain ⟨hs, ht⟩ := escape_quote_inj _ _ _ _ h
      have hstr : s1 = s2 := by
        cases s1; cases s2; exact congrArg String.mk hs
      obtain ⟨htt, hrr⟩ := List.cons.inj ht
      exact ⟨by rw [hstr], htt, hrr⟩
    · exfalso
      have hv2 : ∀ s, v2 ≠ JVal.str s := fun s hh => hs2 ⟨s, hh⟩
      obtain ⟨hd, tl, hcons⟩ :=
        List.exists_cons_of_ne_nil (renderJVal_nonstr_ne_nil v2 hv2)
      rw [hcons] at h
      simp only [renderJVal, List.cons_append, List.cons.injEq] at h
      have hmem : hd ∈ renderJVal v2 := hcons ▸ List.mem_cons_self _ _
      exact (mem_renderJVal_nonstr_safe v2 hv2 hd hmem).2.2 h.1.symm
  · have hv1 : ∀ s, v1 ≠ JVal.str s := fun s hh => hs1 ⟨s, hh⟩
    by_cases hs2 : ∃ s, v2 = JVal.str s
    · exfalso
      obtain ⟨s2, rfl⟩ := hs2
      obtain ⟨hd, tl, hcons⟩ :=
        List.exists_cons_of_ne_nil (renderJVal_nonstr_ne_nil v1 hv1)
      rw [hcons] at h
      simp only [renderJVal, List.cons_append, List.cons.injEq] at h
      have hmem : hd ∈ renderJVal v1 := hcons ▸ List.mem_cons_self _ _
      exact (mem_renderJVal_nonstr_safe v1 hv1 hd hmem).2.2 h.1
    · have hv2 : ∀ s, v2 ≠ JVal.str s := fun s hh => hs2 ⟨s, hh⟩
      obtain ⟨hb, ht, hr⟩ := append_term_inj
        (P := fun c => c ≠ ',' ∧ c ≠ rbrace)
        (renderJVal v1) (renderJVal v2) r1 r2 t1 t2
        (fun c hc => ⟨(mem_renderJVal_nonstr_safe v1 hv1 c hc).1,
          (mem_renderJVal_nonstr_safe v1 hv1 c hc).2.1⟩)
        (fun c hc => ⟨(mem_renderJVal_nonstr_safe v2 hv2 c hc).1,
          (mem_renderJVal_nonstr_safe v2 hv2 c hc).2.1⟩)
        (by rcases ht1 with h1 | h1 <;> subst h1 <;> simp)
        (by rcases ht2 with h2 | h2 <;> subst h2 <;> simp)
        h
      exact ⟨renderJVal_nonstr_inj v1 v2 hv1 hv2 hb, ht, hr⟩

theorem renderPair_term_inj (p1 p2 : String × JVal) (t1 t2 : Char)
    (r1 r2 : List Char)
    (ht1 : t1 = ',' ∨ t1 = rbrace) (ht2 : t2 = ',' ∨ t2 = rbrace)
    (h : renderPair [':'] p1 ++ t1 :: r1 = renderPair [':'] p2 ++ t2 :: r2) :
    p1 = p2 ∧ t1 = t2 ∧ r1 = r2 := by
  obtain ⟨k1, v1⟩ := p1
  obtain ⟨k2, v2⟩ := p2
  simp only [renderPair, List.cons_append, List.append_assoc,
    List.singleton_append, List.cons.injEq, true_and] at h
  obtain ⟨hk, hrest⟩ := escape_quote_inj _ _ _ _ h
  obtain ⟨hv, htt, hrr⟩ := renderJVal_term_inj v1 v2 t1 t2 r1 r2 ht1 ht2
    (List.cons.inj hrest).2
  have hks : k1 = k2 := by
    cases k1; cases k2; exact congrArg String.mk hk
  exact ⟨by rw [hks, hv], htt, hrr⟩

theorem renderPairsSep_inj :
    ∀ l1 l2 r1 r2,
      renderPairsSep [','] [':'] l1 ++ r1 =
        renderPairsSep [','] [':'] l2 ++ r2 →
      l1 = l2 ∧ r1 = r2 := by
  intro l1
  induction l1 with
  | nil =>
      intro l2 r1 r2 h
      cases l2 with
      | nil =>
          simp only [renderPairsSep, List.cons_append, List.nil_append,
            List.cons.injEq] at h
          exact ⟨rfl, h.2⟩
      | cons p2 t2 =>
          exfalso
          cases t2 with
          | nil =>
              simp only [renderPairsSep, renderPair, List.cons_append,
                List.append_assoc, List.nil_append, List.cons.injEq] at h
              exact absurd h.1 (by decide)
          | cons q2 u2 =>
              simp only [renderPairsSep, renderPair, List.cons_append,
                List.append_assoc, List.nil_append, List.cons.injEq] at h
              exact absurd h.1 (by decide)
  | cons p1 t1 ih =>
      intro l2 r1 r2 h
      cases l2 with
      | nil =>
          exfalso
          cases t1 with
          | nil =>
              simp only [renderPairsSep, renderPair, List.cons_append,
                List.append_assoc, List.nil_append, List.cons.injEq] at h
              exact absurd h.1 (by decide)
          | cons q1 u1 =>
              simp only [renderPairsSep, renderPair, List.cons_append,
                List.append_assoc, List.nil_append, List.cons.injEq] at h
              exact absurd h.1 (by decide)
      | cons p2 t2 =>
          cases t1 with
          | nil =>
              cases t2 with
              | nil =>
                  simp only [renderPairsSep, List.append_assoc,
                    List.singleton_append] at h
                  obtain ⟨hp, _, hr⟩ := renderPair_term_inj p1 p2 rbrace
                    rbrace r1 r2 (Or.inr rfl) (Or.inr rfl) h
                  exact ⟨by rw [hp], hr⟩
              | cons q2 u2 =>
                  exfalso
                  simp only [renderPairsSep, List.append_assoc,
                    List.singleton_append, List.cons_append] at h
                  obtain ⟨_, ht, _⟩ := renderPair_term_inj p1 p2 rbrace ','
                    r1 (renderPairsSep [','] [':'] (q2 :: u2) ++ r2)
                    (Or.inr rfl) (Or.inl rfl) h
                  exact absurd ht (by decide)
          | cons q1 u1 =>
              cases t2 with
              | nil =>
                  exfalso
                  simp only [renderPairsSep, List.append_assoc,
                    List.singleton_append, List.cons_append] at h
                  obtain ⟨_, ht, _⟩ := renderPair_term_inj p1 p2 ',' rbrace
                    (renderPairsSep [','] [':'] (q1 :: u1) ++ r1) r2
                    (Or.inl rfl) (Or.inr rfl) h
                  exact absurd ht (by decide)
              | cons q2 u2 =>
                  simp only [renderPairsSep, List.append_assoc,
                    List.singleton_append, List.cons_append] at h
                  obtain ⟨hp, _, hr⟩ := renderPair_term_inj p1 p2 ',' ','
                    (renderPairsSep [','] [':'] (q1 :: u1) ++ r1)
                    (renderPairsSep [','] [':'] (q2 :: u2) ++ r2)
                    (Or.inl rfl) (Or.inl rfl) h
                  obtain ⟨hl, hrr⟩ := ih (q2 :: u2) r1 r2 hr
                  exact ⟨by rw [hp, hl], hrr⟩

/-- The compact renderer of `json.dumps(·, separators=(',', ':'))` is
injective on key-ordered binding lists. -/
theorem canonicalRender_inj {l1 l2 : List (String × JVal)}
    (h : render [','] [':'] l1 = render [','] [':'] l2) : l1 = l2 := by
  simp only [render, List.cons.injEq, true_and] at h
  have h2 := renderPairsSep_inj l1 l2 [] []
  simp only [List.append_nil] at h2
  exact (h2 h).1

theorem lookupField_insertByKey (p : String × JVal)
    (l : List (String × JVal)) (k : String) :
    lookupField (insertByKey p l) k =
      if p.1 = k then some p.2 else lookupField l k := by
  obtain ⟨pk, pv⟩ := p
  induction l with
  | nil => rfl
  | cons q t ih =>
      obtain ⟨qk, qv⟩ := q
      rw [insertByKey]
      by_cases hq : qk < pk
      · simp only [if_pos hq]
        rw [lookupField, ih]
        by_cases hqk : qk = k
        · subst hqk
          rw [if_pos rfl, if_neg (fun he => absurd (he ▸ hq) (lt_irrefl _)),
            lookupField, if_pos rfl]
        · rw [if_neg hqk, lookupField, if_neg hqk]
      · simp only [if_neg hq]
        rw [lookupField]

theorem lookupField_sortKeys (l : List (String × JVal)) (k : String) :
    lookupField (sortKeys l) k = lookupField l k := by
  induction l with
  | nil => rfl
  | cons p t ih =>
      obtain ⟨pk, pv⟩ := p
      rw [sortKeys, lookupField_insertByKey, lookupField, ih]

/-- Canonically equal claims have equal field lookups. -/
theorem canonicalJson_lookup_eq {c1 c2 : Claim}
    (h : canonicalJson c1 = canonicalJson c2) :
    ∀ k, lookupField c1 k = lookupField c2 k := by
  intro k
  have hs : sortKeys c1 = sortKeys c2 := canonicalRender_inj h
  rw [← lookupField_sortKeys c1 k, ← lookupField_sortKeys c2 k, hs]

/-! ## The abstract signature scheme instance used by witnesses -/

theorem strBytes_lt (m : List Char) : ∀ b ∈ strBytes m, b < 256 := by
  induction m with
  | nil => simp [strBytes]
  | cons c t ih =>
      intro b hb
      rcases List.mem_append.mp hb with hb | hb
      · have hc := char_valid_cases c
        simp only [charBytes, List.mem_cons, List.not_mem_nil, or_false] at hb
        rcases hb with hb | hb | hb <;> subst hb <;> omega
      · exact ih b hb

theorem strBytes_inj : ∀ m m' : List Char, strBytes m = strBytes m' → m = m' := by
  intro m
  induction m with
  | nil =>
      intro m' h
      cases m' with
      | nil => rfl
      | cons c t => simp [strBytes, charBytes] at h
  | cons c t ih =>
      intro m' h
      cases m' with
      | nil => simp [strBytes, charBytes] at h
      | cons c' t' =>
          simp only [strBytes, charBytes, List.cons_append, List.nil_append,
            List.cons.injEq] at h
          obtain ⟨h1, h2, h3, h4⟩ := h
          have hc1 := char_valid_cases c
          have hc2 := char_valid_cases c'
          have htn : c.toNat = c'.toNat := by omega
          have hcc : c = c' := by
            rw [← Char.ofNat_toNat c, htn, Char.ofNat_toNat]
          rw [hcc, ih t' h4]

/-! ## C1 -/

theorem verify_signature_some_str (vk : List Nat → List Char → Bool)
    (claim : Claim) (s : String)
    (hl : lookupField claim "signature" = some (.str s)) :
    KeyManager.verify_signature (some vk) claim =
      match b64decode s.data with
      | none => Except.error "binascii.Error: invalid base64-encoded string"
      | some signature =>
          Except.ok (vk signature
            (canonicalJson (removeField claim "signature"))) := by
  rw [KeyManager.verify_signature, hl]

theorem sign_claim_some_eq (sk : List Char → List Nat) (claim : Claim) :
    KeyManager.sign_claim (some sk) claim =
      Except.ok (setField (removeField claim "signature") "signature"
        (.str ⟨b64encode (sk (canonicalJson
          (removeField claim "signature")))⟩)) := by
  rw [KeyManager.sign_claim]

/-- C1: with a matching key pair loaded, `verify_signature` accepts the
output of `sign_claim`; and after mutating any non-signature field of the
signed claim to a different value, `verify_signature` returns false.  The
RSA-PSS pair is abstracted by `sk`/`vk` with the assumptions that
signature bytes are bytes, a signed message verifies, and a signature
verifies no other message. -/
theorem C1_sign_verify_roundtrip_tamper
    (sk : List Char → List Nat) (vk : List Nat → List Char → Bool)
    (hbytes : ∀ m, ∀ b ∈ sk m, b < 256)
    (hcorrect : ∀ m, vk (sk m) m = true)
    (hsound : ∀ m m', vk (sk m) m' = true → m' = m)
    (claim : Claim) (sc : Claim)
    (hsc : KeyManager.sign_claim (some sk) claim = .ok sc)
    (k : String) (v' : JVal) (hk : k ≠ "signature")
    (hv : lookupField sc k ≠ some v') :
    KeyManager.verify_signature (some vk) sc = .ok true ∧
    KeyManager.verify_signature (some vk) (setField sc k v') = .ok false := by
  rw [sign_claim_some_eq] at hsc
  injection hsc with hsc
  set mc := removeField claim "signature" with hmc
  set enc : String := ⟨b64encode (sk (canonicalJson mc))⟩ with henc
  have hkeys : ∀ p ∈ mc, p.1 ≠ "signature" := keys_removeField claim _
  have hscdef : sc = setField mc "signature" (.str enc) := hsc.symm
  subst hscdef
  have hlook : lookupField (setField mc "signature" (.str enc)) "signature"
      = some (.str enc) := lookup_setField_self mc _ _
  have hdec : b64decode enc.data = some (sk (canonicalJson mc)) := by
    rw [henc]
    exact b64decode_b64encode _ (hbytes _)
  have hremove : removeField (setField mc "signature" (.str enc)) "signature"
      = mc := removeField_setField_self mc _ _ hkeys
  constructor
  · rw [verify_signature_some_str vk _ enc hlook, hdec, hremove]
    show Except.ok (vk (sk (canonicalJson mc)) (canonicalJson mc)) =
      Except.ok true
    rw [hcorrect]
  · have hlook2 : lookupField (setField (setField mc "signature" (.str enc))
        k v') "signature" = some (.str enc) := by
      rw [lookup_setField_other _ _ _ _ (Ne.symm hk), hlook]
    have hremove2 : removeField (setField (setField mc "signature"
        (.str enc)) k v') "signature" = setField mc k v' := by
      rw [removeField_setField_comm _ _ _ _ hk, hremove]
    rw [verify_signature_some_str vk _ enc hlook2, hdec, hremove2]
    show Except.ok (vk (sk (canonicalJson mc))
      (canonicalJson (setField mc k v'))) = Except.ok false
    have hne : vk (sk (canonicalJson mc)) (canonicalJson (setField mc k v'))
        ≠ true := by
      intro htrue
      have hcanon := hsound _ _ htrue
      have hlk := canonicalJson_lookup_eq hcanon k
      rw [lookup_setField_self] at hlk
      have hlmc : lookupField (setField mc "signature" (.str enc)) k
          = lookupField mc k := lookup_setField_other _ _ _ _ hk
      rw [hlmc] at hv
      exact hv hlk.symm
    rw [Bool.eq_false_iff.mpr hne]


/-- Witness for C1: the concrete claim `{subject: "A"}` signed with the
fixed-width byte-encoding scheme verifies, and mutating `subject` to `"B"`
makes verification return false. -/
theorem C1_witness :
    KeyManager.verify_signature
        (some (fun sig m => sig == strBytes m))
        (setField (removeField [("subject", JVal.str "A")] "signature")
          "signature"
          (JVal.str ⟨b64encode (strBytes (canonicalJson
            (removeField [("subject", JVal.str "A")] "signature")))⟩))
      = .ok true ∧
    KeyManager.verify_signature
        (some (fun sig m => sig == strBytes m))
        (setField (setField (removeField [("subject", JVal.str "A")]
          "signature") "signature"
          (JVal.str ⟨b64encode (strBytes (canonicalJson
            (removeField [("subject", JVal.str "A")] "signature")))⟩))
          "subject" (JVal.str "B"))
      = .ok false :=
  C1_sign_verify_roundtrip_tamper strBytes (fun sig m => sig == strBytes m)
    strBytes_lt
    (fun _ => beq_self_eq_true _)
    (fun m m' h => (strBytes_inj m m' (eq_of_beq h)).symm)
    [("subject", JVal.str "A")] _ (sign_claim_some_eq _ _)
    "subject" (JVal.str "B") (by decide) (by decide)

/-! ## C2 -/

/-- C2: contrary to the claim, `verify_signature` does not return a boolean
on every input once a public key is loaded: a signature string that fails
base64 decoding raises `binascii.Error` (the decode happens outside the
try block), while a missing signature still returns false.  The claim
`{"signature": "a"}` is a failing input. -/
theorem C2_verify_decode_failure_raises
    (vk : List Nat → List Char → Bool) :
    KeyManager.verify_signature (some vk) [("signature", JVal.str "a")] =
      .error "binascii.Error: invalid base64-encoded string" ∧
    KeyManager.verify_signature (some vk) [("subject", JVal.str "A")] =
      .ok false := ⟨rfl, rfl⟩

/-! ## C3 -/

/-- C3 counterexample: on the mapping `{"a": "b"}` the bytes
`LinkedTrustClient.sign_claim` serializes (default separators `', '`/`': '`)
differ from the canonical bytes `KeyManager.sign_claim` signs and
`KeyManager.verify_signature` recomputes (compact separators). -/
theorem C3_counterexample :
    defaultJson (removeField [("a", JVal.str "b")] "signature") ≠
      canonicalJson (removeField [("a", JVal.str "b")] "signature") := by
  decide

/-- C3 (amended): within `KeyManager`, signing and verification are
self-consistent: the verifier recomputes exactly the canonical bytes the
signer signed (same sorted keys and compact separators), and the base64
encoding the signer attaches decodes back to exactly the signature bytes. -/
theorem C3_km_canonicalization_self_consistent
    (sk : List Char → List Nat)
    (hbytes : ∀ m, ∀ b ∈ sk m, b < 256)
    (claim sc : Claim)
    (hsc : KeyManager.sign_claim (some sk) claim = .ok sc) :
    canonicalJson (removeField sc "signature") =
      canonicalJson (removeField claim "signature") ∧
    lookupField sc "signature" =
      some (.str ⟨b64encode (sk (canonicalJson
        (removeField claim "signature")))⟩) ∧
    b64decode (b64encode (sk (canonicalJson (removeField claim "signature"))))
      = some (sk (canonicalJson (removeField claim "signature"))) := by
  rw [sign_claim_some_eq] at hsc
  injection hsc with hsc
  subst hsc
  refine ⟨?_, ?_, ?_⟩
  · rw [removeField_setField_self _ _ _ (keys_removeField claim _)]
  · exact lookup_setField_self _ _ _
  · exact b64decode_b64encode _ (hbytes _)

/-- Witness for the amended C3 at the concrete claim `{"a": "b"}` and the
byte-encoding signature scheme. -/
theorem C3_witness :
    canonicalJson (removeField (setField
        (removeField [("a", JVal.str "b")] "signature") "signature"
        (JVal.str ⟨b64encode (strBytes (canonicalJson
          (removeField [("a", JVal.str "b")] "signature")))⟩)) "signature") =
      canonicalJson (removeField [("a", JVal.str "b")] "signature") ∧
    lookupField (setField
        (removeField [("a", JVal.str "b")] "signature") "signature"
        (JVal.str ⟨b64encode (strBytes (canonicalJson
          (removeField [("a", JVal.str "b")] "signature")))⟩)) "signature" =
      some (.str ⟨b64encode (strBytes (canonicalJson
        (removeField [("a", JVal.str "b")] "signature")))⟩) ∧
    b64decode (b64encode (strBytes (canonicalJson
        (removeField [("a", JVal.str "b")] "signature")))) =
      some (strBytes (canonicalJson
        (removeField [("a", JVal.str "b")] "signature"))) :=
  C3_km_canonicalization_self_consistent strBytes strBytes_lt
    [("a", JVal.str "b")] _ (sign_claim_some_eq _ _)

/-! ## C8 -/

/-- C8 counterexample: with no private key loaded,
`LinkedTrustClient.sign_claim` does not raise: it logs a warning and
returns the claim unchanged (and unsigned). -/
theorem C8_counterexample :
    LinkedTrustClient.sign_claim none [("subject", JVal.str "A")] =
      .ok [("subject", JVal.str "A")] := rfl

/-- C8 (amended): with no private key loaded, `KeyManager.sign_claim`
raises `ValueError` as the claim states, but `LinkedTrustClient.sign_claim`
instead returns the claim unchanged without a signature. -/
theorem C8_no_key_behavior (claim : Claim) :
    KeyManager.sign_claim none claim = .error "Private key not loaded" ∧
    LinkedTrustClient.sign_claim none claim = .ok claim := ⟨rfl, rfl⟩

/-! ## Filter lemmas -/

theorem filter_claims_cons_eq (a : FClaim) (rest : List FClaim) (k : Bool)
    (tail : List FClaim) (hk : ClaimExtractor.keepClaim a = .ok k)
    (hf : ClaimExtractor.filter_claims rest = .ok tail) :
    ClaimExtractor.filter_claims (a :: rest) =
      .ok (if k then a :: tail else tail) := by
  rw [ClaimExtractor.filter_claims, hk, hf]

theorem filter_claims_cons_shape (a : FClaim) (rest : List FClaim)
    (out : List FClaim)
    (h : ClaimExtractor.filter_claims (a :: rest) = .ok out) :
    ∃ k tail, ClaimExtractor.keepClaim a = .ok k ∧
      ClaimExtractor.filter_claims rest = .ok tail ∧
      out = if k then a :: tail else tail := by
  rw [ClaimExtractor.filter_claims] at h
  cases hk : ClaimExtractor.keepClaim a with
  | error e => rw [hk] at h; exact absurd h (by simp)
  | ok k =>
      rw [hk] at h
      cases hf : ClaimExtractor.filter_claims rest with
      | error e => rw [hf] at h; exact absurd h (by simp)
      | ok tail =>
          rw [hf] at h
          injection h with h
          exact ⟨k, tail, rfl, rfl, h.symm⟩

theorem filter_claims_mem (l : List FClaim) (out : List FClaim)
    (h : ClaimExtractor.filter_claims l = .ok out) (c : FClaim) :
    c ∈ out ↔ c ∈ l ∧ ClaimExtractor.keepClaim c = .ok true := by
  induction l generalizing out with
  | nil =>
      rw [ClaimExtractor.filter_claims] at h
      injection h with h
      subst h
      simp
  | cons a rest ih =>
      obtain ⟨k, tail, hk, hf, hout⟩ := filter_claims_cons_shape a rest out h
      subst hout
      cases k with
      | true =>
          rw [if_pos rfl]
          constructor
          · intro hc
            rcases List.mem_cons.mp hc with rfl | hc
            · exact ⟨List.mem_cons_self _ _, hk⟩
            · obtain ⟨h1, h2⟩ := (ih tail hf).mp hc
              exact ⟨List.mem_cons_of_mem _ h1, h2⟩
          · rintro ⟨hmem, hkc⟩
            rcases List.mem_cons.mp hmem with rfl | hmem
            · exact List.mem_cons_self _ _
            · exact List.mem_cons_of_mem _ ((ih tail hf).mpr ⟨hmem, hkc⟩)
      | false =>
          simp only [Bool.false_eq_true, if_false]
          rw [ih tail hf]
          constructor
          · rintro ⟨h1, h2⟩
            exact ⟨List.mem_cons_of_mem _ h1, h2⟩
          · rintro ⟨hmem, hkc⟩
            rcases List.mem_cons.mp hmem with rfl | hmem
            · rw [hk] at hkc
              injection hkc with hkc
              exact absurd hkc (by simp)
            · exact ⟨hmem, hkc⟩

theorem filter_claims_sublist (l : List FClaim) (out : List FClaim)
    (h : ClaimExtractor.filter_claims l = .ok out) : out.Sublist l := by
  induction l generalizing out with
  | nil =>
      rw [ClaimExtractor.filter_claims] at h
      injection h with h
      subst h
      exact List.Sublist.refl _
  | cons a rest ih =>
      obtain ⟨k, tail, hk, hf, hout⟩ := filter_claims_cons_shape a rest out h
      subst hout
      cases k with
      | true => exact (ih tail hf).cons₂ a
      | false => exact (ih tail hf).cons a

theorem keepClaim_ok_of_str (c : FClaim)
    (hdom : ∀ v, pyGet c "statement" = some v →
      pyTruthyP v = true → ∃ s, v = PyVal.str s) :
    ∃ b, ClaimExtractor.keepClaim c = .ok b := by
  rw [ClaimExtractor.keepClaim]
  cases hget : pyGet c "statement" with
  | none => simp [Option.getD, pyTruthyP]
  | some v =>
      simp only [Option.getD_some]
      by_cases htr : pyTruthyP v = false
      · simp [htr]
      · have htr' : pyTruthyP v = true := by
          cases hb : pyTruthyP v
          · exact absurd hb htr
          · rfl
        obtain ⟨s, rfl⟩ := hdom v hget htr'
        rw [if_neg htr]
        show ∃ b, (if ClaimExtractor.contains_future_words s = true then
          Except.ok false
          else if ClaimExtractor.contains_mission_indicators s = true then
            Except.ok false
          else if ClaimExtractor.is_vague_claim s = true then Except.ok false
          else Except.ok (ClaimExtractor.has_past_tense s ||
            ClaimExtractor.has_numbers s)) = Except.ok b
        split_ifs
        · exact ⟨false, rfl⟩
        · exact ⟨false, rfl⟩
        · exact ⟨false, rfl⟩
        · exact ⟨_, rfl⟩

theorem filter_claims_total (l : List FClaim)
    (hdom : ∀ c ∈ l, ∀ v, pyGet c "statement" = some v →
      pyTruthyP v = true → ∃ s, v = PyVal.str s) :
    ∃ out, ClaimExtractor.filter_claims l = .ok out := by
  induction l with
  | nil => exact ⟨[], rfl⟩
  | cons a rest ih =>
      obtain ⟨b, hb⟩ := keepClaim_ok_of_str a
        (hdom a (List.mem_cons_self _ _))
      obtain ⟨tail, htail⟩ := ih
        (fun c hc => hdom c (List.mem_cons_of_mem _ hc))
      exact ⟨if b then a :: tail else tail,
        filter_claims_cons_eq a rest b tail hb htail⟩

theorem keepClaim_str (c : FClaim) (s : String)
    (hst : pyGet c "statement" = some (PyVal.str s)) (hne : s ≠ "") :
    ClaimExtractor.keepClaim c =
      if ClaimExtractor.contains_future_words s = true then .ok false
      else if ClaimExtractor.contains_mission_indicators s = true then
        .ok false
      else if ClaimExtractor.is_vague_claim s = true then .ok false
      else .ok (ClaimExtractor.has_past_tense s ||
        ClaimExtractor.has_numbers s) := by
  rw [ClaimExtractor.keepClaim, hst]
  simp only [Option.getD_some]
  rw [if_neg (by simp [pyTruthyP, hne])]

theorem keepClaim_true_statement (c : FClaim)
    (hk : ClaimExtractor.keepClaim c = .ok true) :
    ∃ s, pyGet c "statement" = some (PyVal.str s) ∧ s ≠ "" := by
  rw [ClaimExtractor.keepClaim] at hk
  cases hget : pyGet c "statement" with
  | none =>
      rw [hget] at hk
      simp [Option.getD, pyTruthyP] at hk
  | some v =>
      rw [hget] at hk
      simp only [Option.getD_some] at hk
      by_cases htr : pyTruthyP v = false
      · rw [if_pos htr] at hk
        exact absurd hk (by simp)
      · rw [if_neg htr] at hk
        cases v with
        | str s =>
            refine ⟨s, rfl, fun hs => ?_⟩
            subst hs
            exact htr rfl
        | num n => exact absurd hk (by simp)
        | bool b => exact absurd hk (by simp)
        | null => exact absurd hk (by simp)
        | list xs => exact absurd hk (by simp)
        | dict d => exact absurd hk (by simp)

/-! ## C4 -/

/-- C4: a claim whose statement contains a future-tense marker, a
mission-statement marker, or a vague-claim pattern (case-insensitive
substring match) is dropped by the filter, regardless of any numerals or
past-tense verbs in the statement: the rejection rules precede the
acceptance rule. -/
theorem C4_rejection_precedence (l out : List FClaim)
    (h : ClaimExtractor.filter_claims l = .ok out)
    (c : FClaim) (s : String)
    (hst : pyGet c "statement" = some (PyVal.str s))
    (hrej : ClaimExtractor.contains_future_words s = true ∨
      ClaimExtractor.contains_mission_indicators s = true ∨
      ClaimExtractor.is_vague_claim s = true) :
    c ∉ out := by
  intro hmem
  have hkeep := ((filter_claims_mem l out h c).mp hmem).2
  by_cases hs : s = ""
  · subst hs
    rw [ClaimExtractor.keepClaim, hst] at hkeep
    simp [Option.getD, pyTruthyP] at hkeep
  · rw [keepClaim_str c s hst hs] at hkeep
    split_ifs at hkeep with h1 h2 h3
    · exact absurd hkeep (by simp)
    · exact absurd hkeep (by simp)
    · exact absurd hkeep (by simp)
    · rcases hrej with hr | hr | hr
      · exact h1 hr
      · exact h2 hr
      · exact h3 hr

/-- Witness for C4: the statement "We will vaccinate 5,000 children next
year" contains both a future marker and numerals, and the filter drops
it. -/
theorem C4_witness :
    [("statement",
        PyVal.str "We will vaccinate 5,000 children next year")] ∉
      ([] : List FClaim) :=
  C4_rejection_precedence
    [[("statement", PyVal.str "We will vaccinate 5,000 children next year")]]
    [] rfl _ "We will vaccinate 5,000 children next year" rfl
    (Or.inl (by decide))

/-! ## C5 -/

/-- C5: a claim whose statement triggers none of the rejection rules is
kept exactly when the statement contains a past-tense achievement verb or
a numeral; and the three-statement scenario filters to exactly the first
statement. -/
theorem C5_acceptance_rule (l out : List FClaim)
    (h : ClaimExtractor.filter_claims l = .ok out)
    (c : FClaim) (s : String)
    (hst : pyGet c "statement" = some (PyVal.str s))
    (hne : s ≠ "")
    (hnf : ClaimExtractor.contains_future_words s = false)
    (hnm : ClaimExtractor.contains_mission_indicators s = false)
    (hnv : ClaimExtractor.is_vague_claim s = false) :
    (c ∈ out ↔ c ∈ l ∧ (ClaimExtractor.has_past_tense s = true ∨
      ClaimExtractor.has_numbers s = true)) ∧
    ClaimExtractor.filter_claims
        [[("statement",
            PyVal.str "Built 12 schools serving 3,000 students.")],
         [("statement", PyVal.str "Plans to build additional schools.")],
         [("statement", PyVal.str "No complaints about quality.")]] =
      .ok [[("statement",
        PyVal.str "Built 12 schools serving 3,000 students.")]] := by
  constructor
  · rw [filter_claims_mem l out h c]
    rw [keepClaim_str c s hst hne]
    rw [if_neg (by simp [hnf]), if_neg (by simp [hnm]), if_neg (by simp [hnv])]
    constructor
    · rintro ⟨h1, h2⟩
      injection h2 with h2
      exact ⟨h1, Bool.or_eq_true _ _ ▸ h2⟩
    · rintro ⟨h1, h2⟩
      refine ⟨h1, ?_⟩
      congr 1
      exact Bool.or_eq_true _ _ ▸ h2
  · rfl

/-- Witness for C5 at the scenario list: the kept claim is in the output
exactly by the past-verb/numeral rule, and the scenario output is the
first statement alone. -/
theorem C5_witness :
    ([("statement",
        PyVal.str "Built 12 schools serving 3,000 students.")] ∈
      [[("statement",
          PyVal.str "Built 12 schools serving 3,000 students.")]] ↔
      [("statement",
          PyVal.str "Built 12 schools serving 3,000 students.")] ∈
        [[("statement",
            PyVal.str "Built 12 schools serving 3,000 students.")],
         [("statement", PyVal.str "Plans to build additional schools.")],
         [("statement", PyVal.str "No complaints about quality.")]] ∧
      (ClaimExtractor.has_past_tense
          "Built 12 schools serving 3,000 students." = true ∨
        ClaimExtractor.has_numbers
          "Built 12 schools serving 3,000 students." = true)) ∧
    ClaimExtractor.filter_claims
        [[("statement",
            PyVal.str "Built 12 schools serving 3,000 students.")],
         [("statement", PyVal.str "Plans to build additional schools.")],
         [("statement", PyVal.str "No complaints about quality.")]] =
      .ok [[("statement",
        PyVal.str "Built 12 schools serving 3,000 students.")]] :=
  C5_acceptance_rule
    [[("statement",
        PyVal.str "Built 12 schools serving 3,000 students.")],
     [("statement", PyVal.str "Plans to build additional schools.")],
     [("statement", PyVal.str "No complaints about quality.")]]
    [[("statement",
        PyVal.str "Built 12 schools serving 3,000 students.")]]
    rfl _ "Built 12 schools serving 3,000 students." rfl (by decide)
    (by decide) (by decide) (by decide)

/-! ## C9 -/

/-- C9 counterexample: a claim whose truthy `statement` value is not a
string makes the filter raise `AttributeError` (`.lower()` on an int), so
filtering is not error-free on every input claim list. -/
theorem C9_counterexample :
    ClaimExtractor.filter_claims [[("statement", PyVal.num 5)]] =
      .error "AttributeError: lower" := rfl

/-- C9 (amended): on every input list whose truthy statement values are
strings, the filter succeeds and returns a subsequence of the input in the
original order — each claim kept unchanged or dropped, none modified,
reordered or duplicated; a truthy non-string statement instead raises
`AttributeError`. -/
theorem C9_filter_order_preserving_subsequence (l : List FClaim)
    (hdom : ∀ c ∈ l, ∀ v, pyGet c "statement" = some v →
      pyTruthyP v = true → ∃ s, v = PyVal.str s) :
    ∃ out, ClaimExtractor.filter_claims l = .ok out ∧ out.Sublist l := by
  obtain ⟨out, hout⟩ := filter_claims_total l hdom
  exact ⟨out, hout, filter_claims_sublist l out hout⟩

/-- Witness for the amended C9 at a concrete two-claim list. -/
theorem C9_witness :
    ∃ out, ClaimExtractor.filter_claims
        [[("statement", PyVal.str "Built 3 wells")],
         [("statement", PyVal.str "Plans to expand")]] = .ok out ∧
      out.Sublist
        [[("statement", PyVal.str "Built 3 wells")],
         [("statement", PyVal.str "Plans to expand")]] :=
  C9_filter_order_preserving_subsequence
    [[("statement", PyVal.str "Built 3 wells")],
     [("statement", PyVal.str "Plans to expand")]]
    (by
      intro c hc v hv htr
      rcases List.mem_cons.mp hc with rfl | hc
      · have hv' : some (PyVal.str "Built 3 wells") = some v := hv
        exact ⟨"Built 3 wells", (Option.some.inj hv').symm⟩
      · rcases List.mem_cons.mp hc with rfl | hc
        · have hv' : some (PyVal.str "Plans to expand") = some v := hv
          exact ⟨"Plans to expand", (Option.some.inj hv').symm⟩
        · exact absurd hc (List.not_mem_nil c))

/-! ## C10 -/

/-- C10: every claim in the filter's output has a non-empty string
`statement`; a claim whose statement is absent or empty is dropped before
any keyword rule applies. -/
theorem C10_output_statement_nonempty (l out : List FClaim)
    (h : ClaimExtractor.filter_claims l = .ok out) :
    (∀ c ∈ out, ∃ s, pyGet c "statement" = some (PyVal.str s) ∧ s ≠ "") ∧
    (∀ c ∈ l, (pyGet c "statement" = none ∨
      pyGet c "statement" = some (PyVal.str "")) → c ∉ out) := by
  constructor
  · intro c hc
    exact keepClaim_true_statement c ((filter_claims_mem l out h c).mp hc).2
  · intro c _ hst hmem
    have hkeep := ((filter_claims_mem l out h c).mp hmem).2
    obtain ⟨s, hget, hne⟩ := keepClaim_true_statement c hkeep
    rcases hst with hst | hst <;> rw [hst] at hget
    · exact absurd hget (by simp)
    · injection hget with hg
      injection hg with hg
      exact hne hg.symm

/-- Witness for C10 at a list with an absent and an empty statement. -/
theorem C10_witness :
    (∀ c ∈ ([] : List FClaim),
      ∃ s, pyGet c "statement" = some (PyVal.str s) ∧ s ≠ "") ∧
    (∀ c ∈ [[("aspect", PyVal.num 1)], [("statement", PyVal.str "")]],
      (pyGet c "statement" = none ∨
        pyGet c "statement" = some (PyVal.str "")) →
      c ∉ ([] : List FClaim)) :=
  C10_output_statement_nonempty
    [[("aspect", PyVal.num 1)], [("statement", PyVal.str "")]] [] rfl

/-! ## C6 -/

theorem skipWs_bracket (r : List Char) : skipWs ('[' :: r) = '[' :: r := by
  rw [skipWs, if_neg (by decide)]

theorem parseVal_bracket_eq (n : Nat) (r : List Char) :
    parseVal (n + 1) ('[' :: r) =
      (match skipWs r with
       | c2 :: r2 =>
           if c2 = ']' then some (PyVal.list [], r2)
           else (parseElems n (c2 :: r2)).map (fun p => (PyVal.list p.1, p.2))
       | [] => none) := by
  rw [parseVal, skipWs_bracket]
  rfl

theorem parseVal_bracket (n : Nat) (r rest : List Char) (v : PyVal)
    (h : parseVal (n + 1) ('[' :: r) = some (v, rest)) :
    v.isList = true := by
  rw [parseVal_bracket_eq] at h
  cases hsw : skipWs r with
  | nil => rw [hsw] at h; exact absurd h (by simp)
  | cons c2 r2 =>
      rw [hsw] at h
      replace h : (if c2 = ']' then some (PyVal.list [], r2)
          else (parseElems n (c2 :: r2)).map
            (fun p => (PyVal.list p.1, p.2))) = some (v, rest) := h
      by_cases hc2 : c2 = ']'
      · rw [if_pos hc2] at h
        injection h with h
        have hv : v = PyVal.list [] := (Prod.ext_iff.mp h.symm).1
        rw [hv]
        rfl
      · rw [if_neg hc2] at h
        cases hp : parseElems n (c2 :: r2) with
        | none => rw [hp] at h; exact absurd h (by simp)
        | some p =>
            rw [hp] at h
            simp only [Option.map_some'] at h
            injection h with h
            have hv : v = PyVal.list p.1 := (Prod.ext_iff.mp h.symm).1
            rw [hv]
            rfl

theorem jsonLoads_bracket_isList (m : List Char) (v : PyVal)
    (h : jsonLoads ⟨'[' :: m⟩ = some v) : v.isList = true := by
  rw [jsonLoads] at h
  cases hp : parseVal ((⟨'[' :: m⟩ : String).data.length + 1)
      (⟨'[' :: m⟩ : String).data with
  | none => rw [hp] at h; exact absurd h (by simp)
  | some p =>
      obtain ⟨v0, rest0⟩ := p
      rw [hp] at h
      replace h : (if skipWs rest0 = [] then some v0 else none) = some v := h
      by_cases hws : skipWs rest0 = []
      · rw [if_pos hws] at h
        injection h with h
        subst h
        exact parseVal_bracket (m.length + 1) m rest0 v0 hp
      · rw [if_neg hws] at h
        exact absurd h (by simp)

theorem reMatchArray_head (l : List Char) (cap : List Char)
    (h : reMatchArray l = some cap) : ∃ m, cap = '[' :: m := by
  rw [reMatchArray] at h
  by_cases hpre : l.takeWhile (fun c => c ≠ '[') = []
  · rw [if_pos hpre] at h
    exact absurd h (by simp)
  · rw [if_neg hpre] at h
    cases hrest : l.dropWhile (fun c => c ≠ '[') with
    | nil => rw [hrest] at h; exact absurd h (by simp)
    | cons c0 r =>
        rw [hrest] at h
        by_cases hc0 : c0 = '['
        · subst hc0
          simp only at h
          by_cases hmid : r.takeWhile (fun c => c ≠ ']') = []
          · rw [if_pos hmid] at h
            exact absurd h (by simp)
          · rw [if_neg hmid] at h
            cases hr2 : r.dropWhile (fun c => c ≠ ']') with
            | nil => rw [hr2] at h; exact absurd h (by simp)
            | cons c1 post =>
                rw [hr2] at h
                by_cases hc1 : c1 = ']'
                · subst hc1
                  simp only at h
                  by_cases hpost : post.contains ']'
                  · rw [if_pos hpost] at h
                    exact absurd h (by simp)
                  · rw [if_neg hpost] at h
                    injection h with h
                    exact ⟨_, h.symm⟩
                · exact absurd h (by simp [hc1])
        · exact absurd h (by simp [hc0])

/-- C6 counterexample: the response `"5"` passes the strict JSON parse as
the number 5, so the success-path `len(parsed_response)` diagnostic raises
an uncaught `TypeError`: the parse step neither returns a list nor returns
at all. -/
theorem C6_counterexample :
    extract_claims_parse "5" =
      Except.error "TypeError: object has no len()" := rfl

/-- C6 (amended): whenever the strict parse fails, the parse step of
`extract_claims` returns normally and its result is a list (the fallback
array or the empty list); and the two concrete examples hold: the noisy
array extracts to the one-element claim list, and non-JSON input yields
the empty list. (When the strict parse succeeds the parsed value may be a
non-array, and if it has no `len()` the diagnostic print raises an
uncaught `TypeError` — see the counterexample.) -/
theorem C6_parse_step (content : String) :
    (jsonLoads content = none →
      isListOk (extract_claims_parse content) = true) ∧
    extract_claims_parse
        "Some preamble text [\x7b\"subject\":\"A\",\"claim\":\"impact\",\"statement\":\"X\"\x7d] trailing junk"
      = Except.ok (PyVal.list [PyVal.dict
          [("subject", PyVal.str "A"), ("claim", PyVal.str "impact"),
           ("statement", PyVal.str "X")]]) ∧
    extract_claims_parse "not json at all" = Except.ok (PyVal.list []) := by
  refine ⟨?_, rfl, rfl⟩
  intro hnone
  rw [extract_claims_parse, hnone]
  cases hm : reMatchArray content.data with
  | none => rfl
  | some cap =>
      obtain ⟨m, rfl⟩ := reMatchArray_head content.data cap hm
      show isListOk (match jsonLoads ⟨'[' :: m⟩ with
            | some v => lenDiag v
            | none => Except.ok (PyVal.list [])) = true
      cases hj : jsonLoads ⟨'[' :: m⟩ with
      | none => rfl
      | some v =>
          have hl : v.isList = true := jsonLoads_bracket_isList m v hj
          cases v with
          | list l => rfl
          | str s => simp [PyVal.isList] at hl
          | num n => simp [PyVal.isList] at hl
          | bool b => simp [PyVal.isList] at hl
          | null => simp [PyVal.isList] at hl
          | dict d => simp [PyVal.isList] at hl

/-- Witness for the amended C6: on the non-JSON input the strict parse
fails and the parse step indeed returns a list without raising. -/
theorem C6_witness :
    isListOk (extract_claims_parse "not json at all") = true :=
  (C6_parse_step "not json at all").1 rfl

/-! ## C7 -/

/-- C7: `validate_claim` accepts exactly the claims with truthy `subject`,
truthy `statement`, and a `claim` field equal to one of the three enum
strings; `submit_claim` raises precisely when validation fails (the POST
is the total external call `post`). -/
theorem C7_submit_validation (c : Claim)
    (priv : Option (List Char → List Nat)) (now : String)
    (post : Claim → String) :
    (LinkedTrustClient.validate_claim c = true ↔
      ((∃ v, lookupField c "subject" = some v ∧ pyTruthy v = true) ∧
       (∃ v, lookupField c "statement" = some v ∧ pyTruthy v = true) ∧
       (∃ s, lookupField c "claim" = some (JVal.str s) ∧
         (s = "impact" ∨ s = "rated" ∨ s = "same_as")))) ∧
    ((∃ e, LinkedTrustClient.submit_claim priv now post c = .error e) ↔
      LinkedTrustClient.validate_claim c = false) := by
  constructor
  · constructor
    · intro h
      simp only [LinkedTrustClient.validate_claim, Bool.and_eq_true] at h
      obtain ⟨⟨⟨h1, h2⟩, h3⟩, h4⟩ := h
      refine ⟨?_, ?_, ?_⟩
      · cases hsub : lookupField c "subject" with
        | none => rw [hsub] at h1; exact absurd h1 (by simp)
        | some v => rw [hsub] at h1; exact ⟨v, rfl, h1⟩
      · cases hst : lookupField c "statement" with
        | none => rw [hst] at h3; exact absurd h3 (by simp)
        | some v => rw [hst] at h3; exact ⟨v, rfl, h3⟩
      · cases hcl : lookupField c "claim" with
        | none => rw [hcl] at h4; exact absurd h4 (by simp)
        | some v =>
            rw [hcl] at h4
            cases v with
            | str s =>
                simp only [Bool.or_eq_true, beq_iff_eq] at h4
                exact ⟨s, rfl, by tauto⟩
            | int n => exact absurd h4 (by simp)
            | float neg ip frac => exact absurd h4 (by simp)
            | bool b => exact absurd h4 (by simp)
            | null => exact absurd h4 (by simp)
    · rintro ⟨⟨v1, hv1, ht1⟩, ⟨v3, hv3, ht3⟩, ⟨s, hs, henum⟩⟩
      simp only [LinkedTrustClient.validate_claim, hv1, hv3, hs, ht1, ht3,
        Bool.and_eq_true, Bool.or_eq_true, beq_iff_eq]
      rcases henum with rfl | rfl | rfl <;> simp [pyTruthy]
  · constructor
    · rintro ⟨e, he⟩
      cases hb : LinkedTrustClient.validate_claim c with
      | false => rfl
      | true =>
          exfalso
          rw [LinkedTrustClient.submit_claim] at he
          rw [if_neg (by rw [hb]; simp)] at he
          cases priv with
          | none => exact absurd he (by simp)
          | some sk =>
              replace he : (match LinkedTrustClient.sign_claim (some sk)
                  (LinkedTrustClient.format_claim now c) with
                | .ok signed_claim => Except.ok (post signed_claim)
                | .error e2 => Except.error e2) = Except.error e := he
              obtain ⟨sc, hsc⟩ : ∃ sc, LinkedTrustClient.sign_claim (some sk)
                  (LinkedTrustClient.format_claim now c) = .ok sc := ⟨_, rfl⟩
              rw [hsc] at he
              exact absurd he (by simp)
    · intro hval
      refine ⟨"Invalid claim format", ?_⟩
      rw [LinkedTrustClient.submit_claim, if_pos hval]
